import Mathlib

/-
Verification of the RmlUi layout dispatcher (Source/Core/LayoutEngine.cpp).

The dispatcher walks a styled element tree, classifies each element by its
computed display, position and float values, and drives a bounded retry
protocol over an external formatting-context object (LayoutBlockBox).

The element tree and the dispatch control flow are embedded directly from
LayoutEngine.cpp.  The formatting-context operations (AddBlockElement,
AddFloatElement, Close, LayoutTable::FormatTable) live outside the provided
sources, so their outcomes are modelled from the specification as an oracle
whose failure answers are gated by a finite budget of latent blocking
conditions: each failing answer consumes one unit of budget, reflecting the
specification text that a restart is only triggered by state that the next
attempt already accounts for (a scrollbar that has now appeared stays).

Every externally observable action of the dispatcher (context operations,
layout-complete notifications, log warnings) is recorded in an event trace,
so that ordering claims become statements about the trace.
-/

namespace RmlLayout

/-- Computed display values, from Style::Display in the RmlUi style system. -/
inductive Display where
  | none
  | block
  | inlineDisp
  | inlineBlock
  | table
  | tableRow
  | tableRowGroup
  | tableColumn
  | tableColumnGroup
  | tableCell
deriving DecidableEq, Repr

/-- Computed position values, from Style::Position. -/
inductive Position where
  | staticPos
  | relative
  | absolute
  | fixed
deriving DecidableEq, Repr

/-- Computed float values, from Style::Float. -/
inductive FloatProp where
  | none
  | left
  | right
deriving DecidableEq, Repr

/-- Tri-state result of closing a formatting context,
from LayoutBlockBox::CloseResult (OK / LAYOUT_SELF / LAYOUT_PARENT). -/
inductive CloseResult where
  | OK
  | LAYOUT_SELF
  | LAYOUT_PARENT
deriving DecidableEq, Repr

/-- A styled element: tag name, computed display, position and float values,
and the ordered list of children.  This is the fragment of the Element
interface that LayoutEngine.cpp consumes. -/
inductive Elem where
  | mk (tag : String) (display : Display) (position : Position)
       (float_ : FloatProp) (children : List Elem)

mutual

/-- Decidable equality of elements, by structural comparison. -/
def Elem.decEq : (a b : Elem) → Decidable (a = b)
  | Elem.mk t1 d1 p1 f1 cs1, Elem.mk t2 d2 p2 f2 cs2 =>
    if h1 : t1 = t2 then
      if h2 : d1 = d2 then
        if h3 : p1 = p2 then
          if h4 : f1 = f2 then
            match Elem.decEqList cs1 cs2 with
            | isTrue h5 => isTrue (by rw [h1, h2, h3, h4, h5])
            | isFalse h5 => isFalse (by intro h; injection h; contradiction)
          else isFalse (by intro h; injection h; contradiction)
        else isFalse (by intro h; injection h; contradiction)
      else isFalse (by intro h; injection h; contradiction)
    else isFalse (by intro h; injection h; contradiction)

/-- Decidable equality of element lists. -/
def Elem.decEqList : (a b : List Elem) → Decidable (a = b)
  | [], [] => isTrue rfl
  | [], _ :: _ => isFalse (by intro h; injection h)
  | _ :: _, [] => isFalse (by intro h; injection h)
  | a :: as, b :: bs =>
    match Elem.decEq a b, Elem.decEqList as bs with
    | isTrue h1, isTrue h2 => isTrue (by rw [h1, h2])
    | isFalse h1, _ => isFalse (by intro h; injection h; contradiction)
    | _, isFalse h2 => isFalse (by intro h; injection h; contradiction)

end

instance : DecidableEq Elem := Elem.decEq

/-- Tag name accessor (Element::GetTagName). -/
def Elem.tag : Elem → String
  | Elem.mk t _ _ _ _ => t

/-- Computed display accessor. -/
def Elem.display : Elem → Display
  | Elem.mk _ d _ _ _ => d

/-- Computed position accessor. -/
def Elem.position : Elem → Position
  | Elem.mk _ _ p _ _ => p

/-- Computed float accessor. -/
def Elem.float_ : Elem → FloatProp
  | Elem.mk _ _ _ f _ => f

/-- Children accessor (Element::GetNumChildren / GetChild). -/
def Elem.children : Elem → List Elem
  | Elem.mk _ _ _ _ cs => cs

mutual

/-- Number of nodes in the element tree. -/
def Elem.size : Elem → Nat
  | Elem.mk _ _ _ _ cs => 1 + Elem.sizeList cs

/-- Total number of nodes in a list of element trees. -/
def Elem.sizeList : List Elem → Nat
  | [] => 0
  | c :: cs => Elem.size c + Elem.sizeList cs

end

/-- Externally observable actions of the dispatcher, in the order they are
performed.  Each event names the element it concerns. -/
inductive Event where
  | addBreak (e : Elem)
  | onLayout (e : Elem)
  | addAbsolute (e : Elem)
  | addFloat (e : Elem) (ok : Bool)
  | addBlock (e : Elem) (ok : Bool)
  | close (e : Elem) (r : CloseResult)
  | closeAbsolutes (e : Elem)
  | addInline (e : Elem)
  | closeInline (e : Elem)
  | formatTable (e : Elem) (r : CloseResult)
  | warn (e : Elem) (d : Display)
deriving DecidableEq

/-- The element an event concerns. -/
def Event.elem : Event → Elem
  | Event.addBreak e => e
  | Event.onLayout e => e
  | Event.addAbsolute e => e
  | Event.addFloat e _ => e
  | Event.addBlock e _ => e
  | Event.close e _ => e
  | Event.closeAbsolutes e => e
  | Event.addInline e => e
  | Event.closeInline e => e
  | Event.formatTable e _ => e
  | Event.warn e _ => e

/-- State threaded through a layout pass: the position in the oracle stream,
the remaining budget of latent blocking conditions, and the chronological
event trace. -/
structure LState where
  idx : Nat
  budget : Nat
  trace : List Event
deriving DecidableEq

/-- Append one event to the trace. -/
def push (s : LState) (ev : Event) : LState :=
  { s with trace := s.trace ++ [ev] }

/-- Oracle stream deciding the outcomes of external formatting-context
operations: the Bool component answers whether a fallible registration
(AddBlockElement / AddFloatElement) fails, the CloseResult component answers
finalize and table-formatting outcomes.  Answers are consulted in call
order. -/
def Oracle : Type := Nat → Bool × CloseResult

/-- Modelled from the spec: LayoutBlockBox::AddBlockElement opening a child
formatting context.  It fails (returns null) only while a latent blocking
condition remains (budget positive); a failure consumes that condition.
Records an addBlock event carrying the outcome. -/
def askOpen (om : Oracle) (e : Elem) (s : LState) : Bool × LState :=
  let fail := (om s.idx).fst && !(s.budget == 0)
  (!fail,
    { idx := s.idx + 1
      budget := if fail then s.budget - 1 else s.budget
      trace := s.trace ++ [Event.addBlock e (!fail)] })

/-- Modelled from the spec: LayoutBlockBox::AddFloatElement registering a
float box, succeeding or failing on current geometry constraints.  Failure
is gated by the blocking-condition budget.  Records an addFloat event. -/
def askFloat (om : Oracle) (e : Elem) (s : LState) : Bool × LState :=
  let fail := (om s.idx).fst && !(s.budget == 0)
  (!fail,
    { idx := s.idx + 1
      budget := if fail then s.budget - 1 else s.budget
      trace := s.trace ++ [Event.addFloat e (!fail)] })

/-- Modelled from the spec: LayoutBlockBox::Close, the tri-state finalize of
a formatting context.  A non-OK result (a scrollbar appearing locally or in
the parent) consumes one blocking condition; with no budget left every
finalize commits.  Records a close event carrying the result. -/
def askClose (om : Oracle) (e : Elem) (s : LState) : CloseResult × LState :=
  let raw := (om s.idx).snd
  let r := if s.budget == 0 then CloseResult.OK else raw
  (r,
    { idx := s.idx + 1
      budget := if r == CloseResult.OK then s.budget else s.budget - 1
      trace := s.trace ++ [Event.close e r] })

/-- Modelled from the spec: LayoutTable::FormatTable, the external table
sub-formatter, returning the same tri-state as finalize, gated by the same
blocking-condition budget.  Records a formatTable event. -/
def askTable (om : Oracle) (e : Elem) (s : LState) : CloseResult × LState :=
  let raw := (om s.idx).snd
  let r := if s.budget == 0 then CloseResult.OK else raw
  (r,
    { idx := s.idx + 1
      budget := if r == CloseResult.OK then s.budget else s.budget - 1
      trace := s.trace ++ [Event.formatTable e r] })

/-- LayoutEngine::FormatElementTable (LayoutEngine.cpp lines 261-290):
resolve the box, open a child context; on failure return false.  Otherwise
delegate to the table sub-formatter inside a two-iteration loop: LAYOUT_SELF
continues to a second delegation, LAYOUT_PARENT returns false, OK breaks;
after the loop return true.  The loop is unrolled here exactly as the
two-iteration for loop executes. -/
def formatElementTable (om : Oracle) (e : Elem) (s : LState) : Bool × LState :=
  let p := askOpen om e s
  if p.fst = false then (false, p.snd)
  else
    let q1 := askTable om e p.snd
    match q1.fst with
    | CloseResult.OK => (true, q1.snd)
    | CloseResult.LAYOUT_PARENT => (false, q1.snd)
    | CloseResult.LAYOUT_SELF =>
      let q2 := askTable om e q1.snd
      match q2.fst with
      | CloseResult.LAYOUT_PARENT => (false, q2.snd)
      | _ => (true, q2.snd)

mutual

/-- LayoutEngine::FormatElement, per-element overload (LayoutEngine.cpp
lines 110-169).  Classification order, first match wins: the br special
case (FormatElementSpecial, lines 293-306: AddBreak, OnLayout, success);
display none (skip, success); position absolute or fixed (register deferred
absolute, success); non-none float (format as an independent root, then
register the float and return its outcome); otherwise dispatch on display,
where a table-substructure display outside a table logs a warning and
succeeds.  Fuel only bounds the recursion depth of the embedding; running
out yields Option.none. -/
def formatElement (om : Oracle) : Nat → Elem → LState → Option (Bool × LState)
  | 0, _, _ => Option.none
  | fuel + 1, e, s =>
    if e.tag = "br" then
      some (true, push (push s (Event.addBreak e)) (Event.onLayout e))
    else if e.display = Display.none then
      some (true, s)
    else if e.position = Position.absolute ∨ e.position = Position.fixed then
      some (true, push s (Event.addAbsolute e))
    else if e.float_ ≠ FloatProp.none then
      match formatRoot om fuel e s with
      | Option.none => Option.none
      | some s1 => some (askFloat om e s1)
    else
      match e.display with
      | Display.block => formatElementBlock om fuel e s
      | Display.inlineDisp => formatElementInline om fuel e s
      | Display.inlineBlock => formatElementInlineBlock om fuel e s
      | Display.table => some (formatElementTable om e s)
      | Display.none => some (true, s)
      | d => some (true, push s (Event.warn e d))

/-- LayoutEngine::FormatElement, root overload (LayoutEngine.cpp lines
54-94): open the child context of the synthetic root (modelled from the
spec as always succeeding, since a fresh root context has no prior
overflow), then run up to two full child-formatting passes, each closed by
a finalize, stopping early when a finalize commits; finally process the
deferred absolute elements and deliver the layout-complete notification.
The two-iteration for loop is unrolled exactly as it executes. -/
def formatRoot (om : Oracle) : Nat → Elem → LState → Option LState
  | 0, _, _ => Option.none
  | fuel + 1, e, s =>
    let s0 := push s (Event.addBlock e true)
    match childrenPass om fuel e.children e.children s0 with
    | Option.none => Option.none
    | some s1 =>
      let p1 := askClose om e s1
      if p1.fst = CloseResult.OK then
        some (push (push p1.snd (Event.closeAbsolutes e)) (Event.onLayout e))
      else
        match childrenPass om fuel e.children e.children p1.snd with
        | Option.none => Option.none
        | some s2 =>
          let p2 := askClose om e s2
          some (push (push p2.snd (Event.closeAbsolutes e)) (Event.onLayout e))

/-- The child-formatting loop with sibling restart (LayoutEngine.cpp lines
78-82 and 185-189): children are formatted in order; when one returns
false the index is reset to the first sibling, so the whole sequence is
attempted again. -/
def childrenPass (om : Oracle) : Nat → List Elem → List Elem → LState → Option LState
  | 0, _, _, _ => Option.none
  | _ + 1, _, [], s => some s
  | fuel + 1, all, c :: rest, s =>
    match formatElement om fuel c s with
    | Option.none => Option.none
    | some (true, s1) => childrenPass om fuel all rest s1
    | some (false, s1) => childrenPass om fuel all all s1

/-- The retry child pass of block formatting (LayoutEngine.cpp lines
198-199): each child is formatted exactly once in order and the return
codes are ignored. -/
def plainPass (om : Oracle) : Nat → List Elem → LState → Option LState
  | 0, _, _ => Option.none
  | _ + 1, [], s => some s
  | fuel + 1, c :: rest, s =>
    match formatElement om fuel c s with
    | Option.none => Option.none
    | some (_, s1) => plainPass om fuel rest s1

/-- LayoutEngine::FormatElementBlock (LayoutEngine.cpp lines 172-220):
open a child context (failure propagates false without recursion), run the
restarting children pass, finalize.  OK commits with notification;
LAYOUT_PARENT returns false; LAYOUT_SELF reruns the children once with
return codes ignored and finalizes again, committing with notification on
OK and returning false otherwise. -/
def formatElementBlock (om : Oracle) : Nat → Elem → LState → Option (Bool × LState)
  | 0, _, _ => Option.none
  | fuel + 1, e, s =>
    let p := askOpen om e s
    if p.fst = false then some (false, p.snd)
    else
      match childrenPass om fuel e.children e.children p.snd with
      | Option.none => Option.none
      | some s1 =>
        let q1 := askClose om e s1
        match q1.fst with
        | CloseResult.LAYOUT_SELF =>
          match plainPass om fuel e.children q1.snd with
          | Option.none => Option.none
          | some s2 =>
            let q2 := askClose om e s2
            if q2.fst = CloseResult.OK then
              some (true, push q2.snd (Event.onLayout e))
            else
              some (false, q2.snd)
        | CloseResult.LAYOUT_PARENT => some (false, q1.snd)
        | CloseResult.OK => some (true, push q1.snd (Event.onLayout e))

/-- LayoutEngine::FormatElementInline (LayoutEngine.cpp lines 223-243):
register an inline box into the parent context, format the children
against the same context aborting on the first failure, and close the
inline box only when every child succeeded. -/
def formatElementInline (om : Oracle) : Nat → Elem → LState → Option (Bool × LState)
  | 0, _, _ => Option.none
  | fuel + 1, e, s =>
    let s0 := push s (Event.addInline e)
    match inlineChildren om fuel e.children s0 with
    | Option.none => Option.none
    | some (false, s1) => some (false, s1)
    | some (true, s1) => some (true, push s1 (Event.closeInline e))

/-- The inline children loop (LayoutEngine.cpp lines 234-238): children in
order, returning false immediately when one fails. -/
def inlineChildren (om : Oracle) : Nat → List Elem → LState → Option (Bool × LState)
  | 0, _, _ => Option.none
  | _ + 1, [], s => some (true, s)
  | fuel + 1, c :: rest, s =>
    match formatElement om fuel c s with
    | Option.none => Option.none
    | some (false, s1) => some (false, s1)
    | some (true, s1) => inlineChildren om fuel rest s1

/-- LayoutEngine::FormatElementInlineBlock (LayoutEngine.cpp lines
246-258): format the element separately as a root, then insert the
resulting box as a closed atomic inline unit; the root outcome is never
inspected and true is always returned. -/
def formatElementInlineBlock (om : Oracle) : Nat → Elem → LState → Option (Bool × LState)
  | 0, _, _ => Option.none
  | fuel + 1, e, s =>
    match formatRoot om fuel e s with
    | Option.none => Option.none
    | some s1 => some (true, push (push s1 (Event.addInline e)) (Event.closeInline e))

end

/-- Recognizer of a close event for the given element. -/
def isCloseOf (e : Elem) : Event → Bool
  | Event.close e' _ => decide (e' = e)
  | _ => false

/-- Recognizer of a table-delegation event for the given element. -/
def isTableOf (e : Elem) : Event → Bool
  | Event.formatTable e' _ => decide (e' = e)
  | _ => false

/-- The new events appended between an input state and an output state all
concern elements of size at most B. -/
def TraceLe (B : Nat) (s t : LState) : Prop :=
  ∃ l, t.trace = s.trace ++ l ∧ ∀ ev ∈ l, Elem.size (Event.elem ev) ≤ B

/-- Oracle whose external operations always succeed and always commit. -/
def omOK : Oracle := fun _ => (false, CloseResult.OK)

/-- Oracle whose registrations fail and whose finalizes report
LAYOUT_PARENT, as far as the blocking-condition budget allows. -/
def omFail : Oracle := fun _ => (true, CloseResult.LAYOUT_PARENT)

/-- Oracle whose registrations succeed and whose finalizes report
LAYOUT_SELF, as far as the blocking-condition budget allows. -/
def omSelf : Oracle := fun _ => (false, CloseResult.LAYOUT_SELF)

/-- Starting state with no budget: every external operation succeeds. -/
def st0 : LState := LState.mk 0 0 []

/-- Starting state with one latent blocking condition. -/
def st1 : LState := LState.mk 0 1 []

/-- Starting state with two latent blocking conditions. -/
def st2 : LState := LState.mk 0 2 []

/-- A br element whose computed display is none. -/
def eBrNone : Elem := Elem.mk "br" Display.none Position.staticPos FloatProp.none []

/-- A display-none element that is not a br. -/
def eNone : Elem := Elem.mk "div" Display.none Position.staticPos FloatProp.none []

/-- An absolutely positioned element with display none. -/
def eAbsNone : Elem := Elem.mk "div" Display.none Position.absolute FloatProp.none []

/-- An absolutely positioned br element. -/
def eBrAbs : Elem := Elem.mk "br" Display.block Position.absolute FloatProp.none []

/-- A plain absolutely positioned block element. -/
def eAbs : Elem := Elem.mk "div" Display.block Position.absolute FloatProp.none []

/-- A floated element with display none. -/
def eFloatNone : Elem := Elem.mk "div" Display.none Position.staticPos FloatProp.left []

/-- A floated br element. -/
def eBrFloat : Elem := Elem.mk "br" Display.block Position.staticPos FloatProp.left []

/-- A floated element that is absolutely positioned. -/
def eAbsFloat : Elem := Elem.mk "div" Display.block Position.absolute FloatProp.left []

/-- A plain floated block element. -/
def eFloat : Elem := Elem.mk "div" Display.block Position.staticPos FloatProp.left []

/-- A br element declared as a table row. -/
def eRowBr : Elem := Elem.mk "br" Display.tableRow Position.staticPos FloatProp.none []

/-- An absolutely positioned element declared as a table row. -/
def eRowAbs : Elem := Elem.mk "div" Display.tableRow Position.absolute FloatProp.none []

/-- A floated element declared as a table row. -/
def eRowFloat : Elem := Elem.mk "div" Display.tableRow Position.staticPos FloatProp.left []

/-- An in-flow element declared as a table row outside a table. -/
def eRow : Elem := Elem.mk "div" Display.tableRow Position.staticPos FloatProp.none []

/-- A childless in-flow block element. -/
def eDiv : Elem := Elem.mk "div" Display.block Position.staticPos FloatProp.none []

/-- An inline element with one block child. -/
def eSpan : Elem := Elem.mk "span" Display.inlineDisp Position.staticPos FloatProp.none [eDiv]

/-- A childless table element. -/
def eTable : Elem := Elem.mk "table" Display.table Position.staticPos FloatProp.none []

/-- A childless inline-block element. -/
def eInlB : Elem := Elem.mk "div" Display.inlineBlock Position.staticPos FloatProp.none []

theorem push_budget (s : LState) (ev : Event) : (push s ev).budget = s.budget := rfl

theorem push_idx (s : LState) (ev : Event) : (push s ev).idx = s.idx := rfl

theorem push_trace (s : LState) (ev : Event) : (push s ev).trace = s.trace ++ [ev] := rfl

theorem askOpen_budget_le (om : Oracle) (e : Elem) (s : LState) :
    (askOpen om e s).2.budget ≤ s.budget := by
  simp only [askOpen]
  split <;> omega

theorem askOpen_false_budget (om : Oracle) (e : Elem) (s : LState)
    (h : (askOpen om e s).1 = false) : (askOpen om e s).2.budget < s.budget := by
  simp only [askOpen] at h ⊢
  have hb : ((om s.idx).fst && !(s.budget == 0)) = true := by
    cases hx : ((om s.idx).fst && !(s.budget == 0)) with
    | false => rw [hx] at h; simp at h
    | true => rfl
  rw [hb]
  simp only [Bool.and_eq_true, Bool.not_eq_eq_eq_not, Bool.not_true, beq_eq_false_iff_ne,
    ne_eq] at hb
  rw [if_pos rfl]
  omega

theorem askOpen_trace (om : Oracle) (e : Elem) (s : LState) :
    (askOpen om e s).2.trace = s.trace ++ [Event.addBlock e (askOpen om e s).1] := rfl

theorem askFloat_budget_le (om : Oracle) (e : Elem) (s : LState) :
    (askFloat om e s).2.budget ≤ s.budget := by
  simp only [askFloat]
  split <;> omega

theorem askFloat_false_budget (om : Oracle) (e : Elem) (s : LState)
    (h : (askFloat om e s).1 = false) : (askFloat om e s).2.budget < s.budget := by
  simp only [askFloat] at h ⊢
  have hb : ((om s.idx).fst && !(s.budget == 0)) = true := by
    cases hx : ((om s.idx).fst && !(s.budget == 0)) with
    | false => rw [hx] at h; simp at h
    | true => rfl
  rw [hb]
  simp only [Bool.and_eq_true, Bool.not_eq_eq_eq_not, Bool.not_true, beq_eq_false_iff_ne,
    ne_eq] at hb
  rw [if_pos rfl]
  omega

theorem askFloat_trace (om : Oracle) (e : Elem) (s : LState) :
    (askFloat om e s).2.trace = s.trace ++ [Event.addFloat e (askFloat om e s).1] := rfl

theorem askClose_budget_le (om : Oracle) (e : Elem) (s : LState) :
    (askClose om e s).2.budget ≤ s.budget := by
  simp only [askClose]
  split <;> split <;> omega

theorem askClose_ne_budget (om : Oracle) (e : Elem) (s : LState)
    (h : (askClose om e s).1 ≠ CloseResult.OK) : (askClose om e s).2.budget < s.budget := by
  simp only [askClose] at h ⊢
  have hz : (s.budget == 0) = false := by
    cases hx : (s.budget == 0) with
    | false => rfl
    | true => rw [hx] at h; simp at h
  rw [hz] at h ⊢
  simp only [Bool.false_eq_true, if_false] at h ⊢
  have hne : ((om s.idx).snd == CloseResult.OK) = false := by
    cases hq : ((om s.idx).snd == CloseResult.OK) with
    | false => rfl
    | true => exact absurd (by simpa using hq) h
  rw [hne]
  simp only [Bool.false_eq_true, if_false]
  have hz2 : s.budget ≠ 0 := by simpa using hz
  omega

theorem askClose_trace (om : Oracle) (e : Elem) (s : LState) :
    (askClose om e s).2.trace = s.trace ++ [Event.close e (askClose om e s).1] := rfl

theorem askTable_budget_le (om : Oracle) (e : Elem) (s : LState) :
    (askTable om e s).2.budget ≤ s.budget := by
  simp only [askTable]
  split <;> split <;> omega

theorem askTable_ne_budget (om : Oracle) (e : Elem) (s : LState)
    (h : (askTable om e s).1 ≠ CloseResult.OK) : (askTable om e s).2.budget < s.budget := by
  simp only [askTable] at h ⊢
  have hz : (s.budget == 0) = false := by
    cases hx : (s.budget == 0) with
    | false => rfl
    | true => rw [hx] at h; simp at h
  rw [hz] at h ⊢
  simp only [Bool.false_eq_true, if_false] at h ⊢
  have hne : ((om s.idx).snd == CloseResult.OK) = false := by
    cases hq : ((om s.idx).snd == CloseResult.OK) with
    | false => rfl
    | true => exact absurd (by simpa using hq) h
  rw [hne]
  simp only [Bool.false_eq_true, if_false]
  have hz2 : s.budget ≠ 0 := by simpa using hz
  omega

theorem askTable_trace (om : Oracle) (e : Elem) (s : LState) :
    (askTable om e s).2.trace = s.trace ++ [Event.formatTable e (askTable om e s).1] := rfl

/-- Adding one unit of fuel preserves every already-defined result of the
mutually recursive dispatcher functions. -/
theorem mono_step : ∀ fuel : Nat,
    (∀ om e s r, formatElement om fuel e s = some r →
      formatElement om (fuel + 1) e s = some r) ∧
    (∀ om e s t, formatRoot om fuel e s = some t →
      formatRoot om (fuel + 1) e s = some t) ∧
    (∀ om all pend s t, childrenPass om fuel all pend s = some t →
      childrenPass om (fuel + 1) all pend s = some t) ∧
    (∀ om pend s t, plainPass om fuel pend s = some t →
      plainPass om (fuel + 1) pend s = some t) ∧
    (∀ om e s r, formatElementBlock om fuel e s = some r →
      formatElementBlock om (fuel + 1) e s = some r) ∧
    (∀ om e s r, formatElementInline om fuel e s = some r →
      formatElementInline om (fuel + 1) e s = some r) ∧
    (∀ om cs s r, inlineChildren om fuel cs s = some r →
      inlineChildren om (fuel + 1) cs s = some r) ∧
    (∀ om e s r, formatElementInlineBlock om fuel e s = some r →
      formatElementInlineBlock om (fuel + 1) e s = some r) := by
  intro fuel
  induction fuel with
  | zero =>
    refine ⟨?_, ?_, ?_, ?_, ?_, ?_, ?_, ?_⟩
    · intro om e s r h; simp [formatElement] at h
    · intro om e s t h; simp [formatRoot] at h
    · intro om all pend s t h; simp [childrenPass] at h
    · intro om pend s t h; simp [plainPass] at h
    · intro om e s r h; simp [formatElementBlock] at h
    · intro om e s r h; simp [formatElementInline] at h
    · intro om cs s r h; simp [inlineChildren] at h
    · intro om e s r h; simp [formatElementInlineBlock] at h
  | succ n ih =>
    obtain ⟨ihE, ihR, ihC, ihP, ihB, ihI, ihIC, ihIB⟩ := ih
    refine ⟨?_, ?_, ?_, ?_, ?_, ?_, ?_, ?_⟩
    · -- formatElement
      intro om e s r h
      simp only [formatElement] at h ⊢
      by_cases h1 : e.tag = "br"
      · simp only [if_pos h1] at h ⊢; exact h
      simp only [if_neg h1] at h ⊢
      by_cases h2 : e.display = Display.none
      · simp only [if_pos h2] at h ⊢; exact h
      simp only [if_neg h2] at h ⊢
      by_cases h3 : e.position = Position.absolute ∨ e.position = Position.fixed
      · simp only [if_pos h3] at h ⊢; exact h
      simp only [if_neg h3] at h ⊢
      by_cases h4 : e.float_ ≠ FloatProp.none
      · simp only [if_pos h4] at h ⊢
        cases hr : formatRoot om n e s with
        | none => simp [hr] at h
        | some s1 =>
          simp only [hr] at h
          simp only [ihR _ _ _ _ hr]
          exact h
      simp only [if_neg h4] at h ⊢
      cases hd : e.display with
      | none => exact absurd hd h2
      | block => rw [hd] at h; exact ihB _ _ _ _ h
      | inlineDisp => rw [hd] at h; exact ihI _ _ _ _ h
      | inlineBlock => rw [hd] at h; exact ihIB _ _ _ _ h
      | table => rw [hd] at h; exact h
      | tableRow => rw [hd] at h; exact h
      | tableRowGroup => rw [hd] at h; exact h
      | tableColumn => rw [hd] at h; exact h
      | tableColumnGroup => rw [hd] at h; exact h
      | tableCell => rw [hd] at h; exact h
    · -- formatRoot
      intro om e s t h
      simp only [formatRoot] at h ⊢
      cases hc : childrenPass om n e.children e.children (push s (Event.addBlock e true)) with
      | none => simp [hc] at h
      | some s1 =>
        simp only [hc] at h
        simp only [ihC _ _ _ _ _ hc]
        by_cases hok : (askClose om e s1).1 = CloseResult.OK
        · simp only [if_pos hok] at h ⊢; exact h
        simp only [if_neg hok] at h ⊢
        cases hc2 : childrenPass om n e.children e.children (askClose om e s1).2 with
        | none => simp [hc2] at h
        | some s2 =>
          simp only [hc2] at h
          simp only [ihC _ _ _ _ _ hc2]
          exact h
    · -- childrenPass
      intro om all pend s t h
      cases pend with
      | nil => simp only [childrenPass] at h ⊢; exact h
      | cons c rest =>
        simp only [childrenPass] at h ⊢
        cases hf : formatElement om n c s with
        | none => simp [hf] at h
        | some p =>
          obtain ⟨b, s1⟩ := p
          cases b
          · simp only [hf] at h
            simp only [ihE _ _ _ _ hf]
            exact ihC _ _ _ _ _ h
          · simp only [hf] at h
            simp only [ihE _ _ _ _ hf]
            exact ihC _ _ _ _ _ h
    · -- plainPass
      intro om pend s t h
      cases pend with
      | nil => simp only [plainPass] at h ⊢; exact h
      | cons c rest =>
        simp only [plainPass] at h ⊢
        cases hf : formatElement om n c s with
        | none => simp [hf] at h
        | some p =>
          obtain ⟨b, s1⟩ := p
          simp only [hf] at h
          simp only [ihE _ _ _ _ hf]
          exact ihP _ _ _ _ h
    · -- formatElementBlock
      intro om e s r h
      simp only [formatElementBlock] at h ⊢
      by_cases hop : (askOpen om e s).1 = false
      · simp only [if_pos hop] at h ⊢; exact h
      simp only [if_neg hop] at h ⊢
      cases hc : childrenPass om n e.children e.children (askOpen om e s).2 with
      | none => simp [hc] at h
      | some s1 =>
        simp only [hc] at h
        simp only [ihC _ _ _ _ _ hc]
        cases hq : (askClose om e s1).1 with
        | LAYOUT_SELF =>
          simp only [hq] at h ⊢
          cases hp : plainPass om n e.children (askClose om e s1).2 with
          | none => simp [hp] at h
          | some s2 =>
            simp only [hp] at h
            simp only [ihP _ _ _ _ hp]
            exact h
        | LAYOUT_PARENT => simp only [hq] at h ⊢; exact h
        | OK => simp only [hq] at h ⊢; exact h
    · -- formatElementInline
      intro om e s r h
      simp only [formatElementInline] at h ⊢
      cases hic : inlineChildren om n e.children (push s (Event.addInline e)) with
      | none => simp [hic] at h
      | some p =>
        obtain ⟨b, s1⟩ := p
        cases b
        · simp only [hic] at h
          simp only [ihIC _ _ _ _ hic]
          exact h
        · simp only [hic] at h
          simp only [ihIC _ _ _ _ hic]
          exact h
    · -- inlineChildren
      intro om cs s r h
      cases cs with
      | nil => simp only [inlineChildren] at h ⊢; exact h
      | cons c rest =>
        simp only [inlineChildren] at h ⊢
        cases hf : formatElement om n c s with
        | none => simp [hf] at h
        | some p =>
          obtain ⟨b, s1⟩ := p
          cases b
          · simp only [hf] at h
            simp only [ihE _ _ _ _ hf]
            exact h
          · simp only [hf] at h
            simp only [ihE _ _ _ _ hf]
            exact ihIC _ _ _ _ h
    · -- formatElementInlineBlock
      intro om e s r h
      simp only [formatElementInlineBlock] at h ⊢
      cases hr : formatRoot om n e s with
      | none => simp [hr] at h
      | some s1 =>
        simp only [hr] at h
        simp only [ihR _ _ _ _ hr]
        exact h

/-- Fuel monotonicity of formatElement. -/
theorem formatElement_mono (om : Oracle) (f f' : Nat) (e : Elem) (s : LState)
    (r : Bool × LState) (hle : f ≤ f') (h : formatElement om f e s = some r) :
    formatElement om f' e s = some r := by
  induction hle with
  | refl => exact h
  | step _ ih => exact (mono_step _).1 _ _ _ _ ih

/-- Fuel monotonicity of formatRoot. -/
theorem formatRoot_mono (om : Oracle) (f f' : Nat) (e : Elem) (s : LState)
    (t : LState) (hle : f ≤ f') (h : formatRoot om f e s = some t) :
    formatRoot om f' e s = some t := by
  induction hle with
  | refl => exact h
  | step _ ih => exact (mono_step _).2.1 _ _ _ _ ih

/-- Fuel monotonicity of childrenPass. -/
theorem childrenPass_mono (om : Oracle) (f f' : Nat) (all pend : List Elem)
    (s t : LState) (hle : f ≤ f') (h : childrenPass om f all pend s = some t) :
    childrenPass om f' all pend s = some t := by
  induction hle with
  | refl => exact h
  | step _ ih => exact (mono_step _).2.2.1 _ _ _ _ _ ih

/-- Fuel monotonicity of plainPass. -/
theorem plainPass_mono (om : Oracle) (f f' : Nat) (pend : List Elem)
    (s t : LState) (hle : f ≤ f') (h : plainPass om f pend s = some t) :
    plainPass om f' pend s = some t := by
  induction hle with
  | refl => exact h
  | step _ ih => exact (mono_step _).2.2.2.1 _ _ _ _ ih

/-- Fuel monotonicity of formatElementBlock. -/
theorem formatElementBlock_mono (om : Oracle) (f f' : Nat) (e : Elem) (s : LState)
    (r : Bool × LState) (hle : f ≤ f') (h : formatElementBlock om f e s = some r) :
    formatElementBlock om f' e s = some r := by
  induction hle with
  | refl => exact h
  | step _ ih => exact (mono_step _).2.2.2.2.1 _ _ _ _ ih

/-- Fuel monotonicity of formatElementInline. -/
theorem formatElementInline_mono (om : Oracle) (f f' : Nat) (e : Elem) (s : LState)
    (r : Bool × LState) (hle : f ≤ f') (h : formatElementInline om f e s = some r) :
    formatElementInline om f' e s = some r := by
  induction hle with
  | refl => exact h
  | step _ ih => exact (mono_step _).2.2.2.2.2.1 _ _ _ _ ih

/-- Fuel monotonicity of inlineChildren. -/
theorem inlineChildren_mono (om : Oracle) (f f' : Nat) (cs : List Elem)
    (s : LState) (r : Bool × LState) (hle : f ≤ f')
    (h : inlineChildren om f cs s = some r) :
    inlineChildren om f' cs s = some r := by
  induction hle with
  | refl => exact h
  | step _ ih => exact (mono_step _).2.2.2.2.2.2.1 _ _ _ _ ih

/-- Fuel monotonicity of formatElementInlineBlock. -/
theorem formatElementInlineBlock_mono (om : Oracle) (f f' : Nat) (e : Elem)
    (s : LState) (r : Bool × LState) (hle : f ≤ f')
    (h : formatElementInlineBlock om f e s = some r) :
    formatElementInlineBlock om f' e s = some r := by
  induction hle with
  | refl => exact h
  | step _ ih => exact (mono_step _).2.2.2.2.2.2.2 _ _ _ _ ih

theorem some_pair_inj {b1 b2 : Bool} {s1 s2 : LState}
    (h : some (b1, s1) = some (b2, s2)) : b1 = b2 ∧ s1 = s2 :=
  ⟨congrArg Prod.fst (Option.some.inj h), congrArg Prod.snd (Option.some.inj h)⟩

/-- Table formatting never increases the blocking-condition budget and
consumes at least one unit when it fails. -/
theorem formatElementTable_budget (om : Oracle) (e : Elem) (s : LState) :
    (formatElementTable om e s).2.budget ≤ s.budget ∧
    ((formatElementTable om e s).1 = false → (formatElementTable om e s).2.budget < s.budget) := by
  simp only [formatElementTable]
  by_cases hop : (askOpen om e s).1 = false
  · simp only [if_pos hop]
    exact ⟨le_of_lt (askOpen_false_budget om e s hop), fun _ => askOpen_false_budget om e s hop⟩
  · simp only [if_neg hop]
    have hob : (askOpen om e s).2.budget ≤ s.budget := askOpen_budget_le om e s
    have ht1 : (askTable om e (askOpen om e s).2).2.budget ≤ (askOpen om e s).2.budget :=
      askTable_budget_le om e (askOpen om e s).2
    cases hq1 : (askTable om e (askOpen om e s).2).1 with
    | OK =>
      simp only [hq1]
      exact ⟨le_trans ht1 hob, fun hf => by simp at hf⟩
    | LAYOUT_PARENT =>
      simp only [hq1]
      have hlt : (askTable om e (askOpen om e s).2).2.budget < (askOpen om e s).2.budget :=
        askTable_ne_budget om e (askOpen om e s).2 (by rw [hq1]; intro hc; cases hc)
      exact ⟨le_trans ht1 hob, fun _ => lt_of_lt_of_le hlt hob⟩
    | LAYOUT_SELF =>
      simp only [hq1]
      have hlt1 : (askTable om e (askOpen om e s).2).2.budget < (askOpen om e s).2.budget :=
        askTable_ne_budget om e (askOpen om e s).2 (by rw [hq1]; intro hc; cases hc)
      have ht2 : (askTable om e (askTable om e (askOpen om e s).2).2).2.budget ≤
          (askTable om e (askOpen om e s).2).2.budget :=
        askTable_budget_le om e (askTable om e (askOpen om e s).2).2
      cases hq2 : (askTable om e (askTable om e (askOpen om e s).2).2).1 with
      | OK =>
        simp only [hq2]
        exact ⟨by omega, fun hf => by simp at hf⟩
      | LAYOUT_PARENT =>
        simp only [hq2]
        exact ⟨by omega, fun _ => by omega⟩
      | LAYOUT_SELF =>
        simp only [hq2]
        exact ⟨by omega, fun hf => by simp at hf⟩

/-- The dispatcher functions never increase the blocking-condition budget,
and a false return always consumes at least one unit of budget. -/
theorem budget_all : ∀ fuel : Nat,
    (∀ om e s b s1, formatElement om fuel e s = some (b, s1) →
      s1.budget ≤ s.budget ∧ (b = false → s1.budget < s.budget)) ∧
    (∀ om e s t, formatRoot om fuel e s = some t → t.budget ≤ s.budget) ∧
    (∀ om all pend s t, childrenPass om fuel all pend s = some t → t.budget ≤ s.budget) ∧
    (∀ om pend s t, plainPass om fuel pend s = some t → t.budget ≤ s.budget) ∧
    (∀ om e s b s1, formatElementBlock om fuel e s = some (b, s1) →
      s1.budget ≤ s.budget ∧ (b = false → s1.budget < s.budget)) ∧
    (∀ om e s b s1, formatElementInline om fuel e s = some (b, s1) →
      s1.budget ≤ s.budget ∧ (b = false → s1.budget < s.budget)) ∧
    (∀ om cs s b s1, inlineChildren om fuel cs s = some (b, s1) →
      s1.budget ≤ s.budget ∧ (b = false → s1.budget < s.budget)) ∧
    (∀ om e s b s1, formatElementInlineBlock om fuel e s = some (b, s1) →
      s1.budget ≤ s.budget ∧ (b = false → s1.budget < s.budget)) := by
  intro fuel
  induction fuel with
  | zero =>
    refine ⟨?_, ?_, ?_, ?_, ?_, ?_, ?_, ?_⟩
    · intro om e s b s1 h; simp [formatElement] at h
    · intro om e s t h; simp [formatRoot] at h
    · intro om all pend s t h; simp [childrenPass] at h
    · intro om pend s t h; simp [plainPass] at h
    · intro om e s b s1 h; simp [formatElementBlock] at h
    · intro om e s b s1 h; simp [formatElementInline] at h
    · intro om cs s b s1 h; simp [inlineChildren] at h
    · intro om e s b s1 h; simp [formatElementInlineBlock] at h
  | succ n ih =>
    obtain ⟨ihE, ihR, ihC, ihP, ihB, ihI, ihIC, ihIB⟩ := ih
    refine ⟨?_, ?_, ?_, ?_, ?_, ?_, ?_, ?_⟩
    · -- formatElement
      intro om e s b s1 h
      simp only [formatElement] at h
      by_cases h1 : e.tag = "br"
      · simp only [if_pos h1] at h
        obtain ⟨hb, hs⟩ := some_pair_inj h.symm
        subst hb; subst hs
        exact ⟨le_refl _, fun hf => by simp at hf⟩
      simp only [if_neg h1] at h
      by_cases h2 : e.display = Display.none
      · simp only [if_pos h2] at h
        obtain ⟨hb, hs⟩ := some_pair_inj h.symm
        subst hb; subst hs
        exact ⟨le_refl _, fun hf => by simp at hf⟩
      simp only [if_neg h2] at h
      by_cases h3 : e.position = Position.absolute ∨ e.position = Position.fixed
      · simp only [if_pos h3] at h
        obtain ⟨hb, hs⟩ := some_pair_inj h.symm
        subst hb; subst hs
        exact ⟨le_refl _, fun hf => by simp at hf⟩
      simp only [if_neg h3] at h
      by_cases h4 : e.float_ ≠ FloatProp.none
      · simp only [if_pos h4] at h
        cases hr : formatRoot om n e s with
        | none => simp [hr] at h
        | some sR =>
          simp only [hr] at h
          obtain ⟨hb, hs⟩ := some_pair_inj h
          have hb2 : (askFloat om e sR).1 = b := hb
          have hs2 : (askFloat om e sR).2 = s1 := hs
          have hroot : sR.budget ≤ s.budget := ihR _ _ _ _ hr
          have hfl : (askFloat om e sR).2.budget ≤ sR.budget := askFloat_budget_le om e sR
          constructor
          · rw [← hs2]; omega
          · intro hf
            rw [← hb2] at hf
            have := askFloat_false_budget om e sR hf
            rw [← hs2]; omega
      simp only [if_neg h4] at h
      cases hd : e.display with
      | none => exact absurd hd h2
      | block => rw [hd] at h; exact ihB _ _ _ _ _ h
      | inlineDisp => rw [hd] at h; exact ihI _ _ _ _ _ h
      | inlineBlock => rw [hd] at h; exact ihIB _ _ _ _ _ h
      | table =>
        rw [hd] at h
        obtain ⟨hb, hs⟩ := some_pair_inj h
        have := formatElementTable_budget om e s
        constructor
        · rw [← hs]; exact this.1
        · intro hf; rw [← hb] at hf; rw [← hs]; exact this.2 hf
      | tableRow =>
        rw [hd] at h
        obtain ⟨hb, hs⟩ := some_pair_inj h.symm
        subst hb; subst hs
        exact ⟨le_refl _, fun hf => by simp at hf⟩
      | tableRowGroup =>
        rw [hd] at h
        obtain ⟨hb, hs⟩ := some_pair_inj h.symm
        subst hb; subst hs
        exact ⟨le_refl _, fun hf => by simp at hf⟩
      | tableColumn =>
        rw [hd] at h
        obtain ⟨hb, hs⟩ := some_pair_inj h.symm
        subst hb; subst hs
        exact ⟨le_refl _, fun hf => by simp at hf⟩
      | tableColumnGroup =>
        rw [hd] at h
        obtain ⟨hb, hs⟩ := some_pair_inj h.symm
        subst hb; subst hs
        exact ⟨le_refl _, fun hf => by simp at hf⟩
      | tableCell =>
        rw [hd] at h
        obtain ⟨hb, hs⟩ := some_pair_inj h.symm
        subst hb; subst hs
        exact ⟨le_refl _, fun hf => by simp at hf⟩
    · -- formatRoot
      intro om e s t h
      simp only [formatRoot] at h
      cases hc : childrenPass om n e.children e.children (push s (Event.addBlock e true)) with
      | none => simp [hc] at h
      | some s1 =>
        simp only [hc] at h
        have hc1 : s1.budget ≤ s.budget := by
          have := ihC _ _ _ _ _ hc
          simpa [push] using this
        have hcl1 : (askClose om e s1).2.budget ≤ s1.budget := askClose_budget_le om e s1
        by_cases hok : (askClose om e s1).1 = CloseResult.OK
        · simp only [if_pos hok] at h
          have ht := Option.some.inj h
          rw [← ht]
          simp only [push_budget]
          omega
        · simp only [if_neg hok] at h
          cases hc2 : childrenPass om n e.children e.children (askClose om e s1).2 with
          | none => simp [hc2] at h
          | some s2 =>
            simp only [hc2] at h
            have hc2b : s2.budget ≤ (askClose om e s1).2.budget := ihC _ _ _ _ _ hc2
            have hcl2 : (askClose om e s2).2.budget ≤ s2.budget := askClose_budget_le om e s2
            have ht := Option.some.inj h
            rw [← ht]
            simp only [push_budget]
            omega
    · -- childrenPass
      intro om all pend s t h
      cases pend with
      | nil =>
        simp only [childrenPass] at h
        exact le_of_eq (congrArg LState.budget (Option.some.inj h)).symm
      | cons c rest =>
        simp only [childrenPass] at h
        cases hf : formatElement om n c s with
        | none => simp [hf] at h
        | some p =>
          obtain ⟨b, s1⟩ := p
          have hhead := ihE _ _ _ _ _ hf
          cases b
          · simp only [hf] at h
            have htail : t.budget ≤ s1.budget := ihC _ _ _ _ _ h
            omega
          · simp only [hf] at h
            have htail : t.budget ≤ s1.budget := ihC _ _ _ _ _ h
            omega
    · -- plainPass
      intro om pend s t h
      cases pend with
      | nil =>
        simp only [plainPass] at h
        exact le_of_eq (congrArg LState.budget (Option.some.inj h)).symm
      | cons c rest =>
        simp only [plainPass] at h
        cases hf : formatElement om n c s with
        | none => simp [hf] at h
        | some p =>
          obtain ⟨b, s1⟩ := p
          have hhead := ihE _ _ _ _ _ hf
          simp only [hf] at h
          have htail : t.budget ≤ s1.budget := ihP _ _ _ _ h
          omega
    · -- formatElementBlock
      intro om e s b s1 h
      simp only [formatElementBlock] at h
      by_cases hop : (askOpen om e s).1 = false
      · simp only [if_pos hop] at h
        obtain ⟨hb, hs⟩ := some_pair_inj h.symm
        have hlt := askOpen_false_budget om e s hop
        constructor
        · rw [hs]; omega
        · intro _; rw [hs]; omega
      simp only [if_neg hop] at h
      have hopb : (askOpen om e s).2.budget ≤ s.budget := askOpen_budget_le om e s
      cases hc : childrenPass om n e.children e.children (askOpen om e s).2 with
      | none => simp [hc] at h
      | some s2 =>
        simp only [hc] at h
        have hc1 : s2.budget ≤ (askOpen om e s).2.budget := ihC _ _ _ _ _ hc
        have hcl1 : (askClose om e s2).2.budget ≤ s2.budget := askClose_budget_le om e s2
        cases hq : (askClose om e s2).1 with
        | LAYOUT_SELF =>
          simp only [hq] at h
          have hq1lt : (askClose om e s2).2.budget < s2.budget :=
            askClose_ne_budget om e s2 (by rw [hq]; intro hx; cases hx)
          cases hp : plainPass om n e.children (askClose om e s2).2 with
          | none => simp [hp] at h
          | some s3 =>
            simp only [hp] at h
            have hpb : s3.budget ≤ (askClose om e s2).2.budget := ihP _ _ _ _ hp
            have hcl2 : (askClose om e s3).2.budget ≤ s3.budget := askClose_budget_le om e s3
            by_cases hq2 : (askClose om e s3).1 = CloseResult.OK
            · simp only [if_pos hq2] at h
              obtain ⟨hb, hs⟩ := some_pair_inj h.symm
              constructor
              · rw [hs]; simp only [push_budget]; omega
              · intro hfb; rw [hb] at hfb; simp at hfb
            · simp only [if_neg hq2] at h
              obtain ⟨hb, hs⟩ := some_pair_inj h.symm
              constructor
              · rw [hs]; omega
              · intro _; rw [hs]; omega
        | LAYOUT_PARENT =>
          simp only [hq] at h
          have hq1lt : (askClose om e s2).2.budget < s2.budget :=
            askClose_ne_budget om e s2 (by rw [hq]; intro hx; cases hx)
          obtain ⟨hb, hs⟩ := some_pair_inj h.symm
          constructor
          · rw [hs]; omega
          · intro _; rw [hs]; omega
        | OK =>
          simp only [hq] at h
          obtain ⟨hb, hs⟩ := some_pair_inj h.symm
          constructor
          · rw [hs]; simp only [push_budget]; omega
          · intro hfb; rw [hb] at hfb; simp at hfb
    · -- formatElementInline
      intro om e s b s1 h
      simp only [formatElementInline] at h
      cases hic : inlineChildren om n e.children (push s (Event.addInline e)) with
      | none => simp [hic] at h
      | some p =>
        obtain ⟨bi, si⟩ := p
        have hich := ihIC _ _ _ _ _ hic
        have hpb : (push s (Event.addInline e)).budget = s.budget := rfl
        cases bi
        · simp only [hic] at h
          obtain ⟨hb, hs⟩ := some_pair_inj h.symm
          constructor
          · rw [hs]; omega
          · intro _; rw [hs]
            have := hich.2 rfl
            omega
        · simp only [hic] at h
          obtain ⟨hb, hs⟩ := some_pair_inj h.symm
          constructor
          · rw [hs]; simp only [push_budget]; omega
          · intro hfb; rw [hb] at hfb; simp at hfb
    · -- inlineChildren
      intro om cs s b s1 h
      cases cs with
      | nil =>
        simp only [inlineChildren] at h
        obtain ⟨hb, hs⟩ := some_pair_inj h.symm
        constructor
        · rw [hs]
        · intro hfb; rw [hb] at hfb; simp at hfb
      | cons c rest =>
        simp only [inlineChildren] at h
        cases hf : formatElement om n c s with
        | none => simp [hf] at h
        | some p =>
          obtain ⟨bh, sh⟩ := p
          have hhead := ihE _ _ _ _ _ hf
          cases bh
          · simp only [hf] at h
            obtain ⟨hb, hs⟩ := some_pair_inj h.symm
            have := hhead.2 rfl
            constructor
            · rw [hs]; omega
            · intro _; rw [hs]; omega
          · simp only [hf] at h
            have htail := ihIC _ _ _ _ _ h
            constructor
            · omega
            · intro hfb
              have := htail.2 hfb
              omega
    · -- formatElementInlineBlock
      intro om e s b s1 h
      simp only [formatElementInlineBlock] at h
      cases hr : formatRoot om n e s with
      | none => simp [hr] at h
      | some sR =>
        simp only [hr] at h
        obtain ⟨hb, hs⟩ := some_pair_inj h.symm
        have hroot : sR.budget ≤ s.budget := ihR _ _ _ _ hr
        constructor
        · rw [hs]; simp only [push_budget]; omega
        · intro hfb; rw [hb] at hfb; simp at hfb

theorem traceLe_refl (B : Nat) (s : LState) : TraceLe B s s :=
  ⟨[], by simp, by simp⟩

theorem traceLe_trans {B : Nat} {s t u : LState} (h1 : TraceLe B s t)
    (h2 : TraceLe B t u) : TraceLe B s u := by
  obtain ⟨l1, e1, m1⟩ := h1
  obtain ⟨l2, e2, m2⟩ := h2
  refine ⟨l1 ++ l2, ?_, ?_⟩
  · rw [e2, e1, List.append_assoc]
  · intro ev hev
    rcases List.mem_append.mp hev with hm | hm
    · exact m1 ev hm
    · exact m2 ev hm

theorem traceLe_mono {B B2 : Nat} {s t : LState} (hb : B ≤ B2)
    (h : TraceLe B s t) : TraceLe B2 s t := by
  obtain ⟨l, e1, m1⟩ := h
  exact ⟨l, e1, fun ev hev => le_trans (m1 ev hev) hb⟩

theorem traceLe_push {B : Nat} (s : LState) (ev : Event)
    (h : Elem.size (Event.elem ev) ≤ B) : TraceLe B s (push s ev) :=
  ⟨[ev], rfl, by intro x hx; rw [List.mem_singleton.mp hx]; exact h⟩

theorem traceLe_askOpen {B : Nat} (om : Oracle) (e : Elem) (s : LState)
    (h : Elem.size e ≤ B) : TraceLe B s (askOpen om e s).2 :=
  ⟨[Event.addBlock e (askOpen om e s).1], askOpen_trace om e s,
    by intro x hx; rw [List.mem_singleton.mp hx]; exact h⟩

theorem traceLe_askFloat {B : Nat} (om : Oracle) (e : Elem) (s : LState)
    (h : Elem.size e ≤ B) : TraceLe B s (askFloat om e s).2 :=
  ⟨[Event.addFloat e (askFloat om e s).1], askFloat_trace om e s,
    by intro x hx; rw [List.mem_singleton.mp hx]; exact h⟩

theorem traceLe_askClose {B : Nat} (om : Oracle) (e : Elem) (s : LState)
    (h : Elem.size e ≤ B) : TraceLe B s (askClose om e s).2 :=
  ⟨[Event.close e (askClose om e s).1], askClose_trace om e s,
    by intro x hx; rw [List.mem_singleton.mp hx]; exact h⟩

theorem traceLe_askTable {B : Nat} (om : Oracle) (e : Elem) (s : LState)
    (h : Elem.size e ≤ B) : TraceLe B s (askTable om e s).2 :=
  ⟨[Event.formatTable e (askTable om e s).1], askTable_trace om e s,
    by intro x hx; rw [List.mem_singleton.mp hx]; exact h⟩

theorem size_pos (e : Elem) : 1 ≤ Elem.size e := by
  cases e with
  | mk t d p f cs => exact Nat.le_add_right 1 (Elem.sizeList cs)

theorem size_children_eq (e : Elem) : Elem.size e = 1 + Elem.sizeList e.children := by
  cases e with
  | mk t d p f cs => rfl

theorem sizeList_cons (c : Elem) (cs : List Elem) :
    Elem.sizeList (c :: cs) = Elem.size c + Elem.sizeList cs := rfl

theorem size_mem_le {c : Elem} {cs : List Elem} (h : c ∈ cs) :
    Elem.size c ≤ Elem.sizeList cs := by
  induction cs with
  | nil => cases h
  | cons d ds ih =>
    rcases List.mem_cons.mp h with rfl | hm
    · rw [sizeList_cons]; omega
    · have := ih hm
      rw [sizeList_cons]
      omega

/-- Table formatting appends only events concerning the table element. -/
theorem formatElementTable_trace (om : Oracle) (e : Elem) (s : LState) :
    TraceLe (Elem.size e) s (formatElementTable om e s).2 := by
  simp only [formatElementTable]
  by_cases hop : (askOpen om e s).1 = false
  · simp only [if_pos hop]
    exact traceLe_askOpen om e s (le_refl _)
  · simp only [if_neg hop]
    have h0 : TraceLe (Elem.size e) s (askOpen om e s).2 := traceLe_askOpen om e s (le_refl _)
    have h1 : TraceLe (Elem.size e) (askOpen om e s).2 (askTable om e (askOpen om e s).2).2 :=
      traceLe_askTable om e _ (le_refl _)
    cases hq1 : (askTable om e (askOpen om e s).2).1 with
    | OK => simp only [hq1]; exact traceLe_trans h0 h1
    | LAYOUT_PARENT => simp only [hq1]; exact traceLe_trans h0 h1
    | LAYOUT_SELF =>
      simp only [hq1]
      have h2 : TraceLe (Elem.size e) (askTable om e (askOpen om e s).2).2
          (askTable om e (askTable om e (askOpen om e s).2).2).2 :=
        traceLe_askTable om e _ (le_refl _)
      cases hq2 : (askTable om e (askTable om e (askOpen om e s).2).2).1 with
      | OK => simp only [hq2]; exact traceLe_trans h0 (traceLe_trans h1 h2)
      | LAYOUT_PARENT => simp only [hq2]; exact traceLe_trans h0 (traceLe_trans h1 h2)
      | LAYOUT_SELF => simp only [hq2]; exact traceLe_trans h0 (traceLe_trans h1 h2)

/-- Every event appended by a dispatcher function concerns an element inside
the subtree being formatted, measured by tree size. -/
theorem trace_all : ∀ fuel : Nat,
    (∀ om e s b s1, formatElement om fuel e s = some (b, s1) →
      TraceLe (Elem.size e) s s1) ∧
    (∀ om e s t, formatRoot om fuel e s = some t → TraceLe (Elem.size e) s t) ∧
    (∀ om all pend s t, childrenPass om fuel all pend s = some t →
      TraceLe (max (Elem.sizeList all) (Elem.sizeList pend)) s t) ∧
    (∀ om pend s t, plainPass om fuel pend s = some t →
      TraceLe (Elem.sizeList pend) s t) ∧
    (∀ om e s b s1, formatElementBlock om fuel e s = some (b, s1) →
      TraceLe (Elem.size e) s s1) ∧
    (∀ om e s b s1, formatElementInline om fuel e s = some (b, s1) →
      TraceLe (Elem.size e) s s1) ∧
    (∀ om cs s b s1, inlineChildren om fuel cs s = some (b, s1) →
      TraceLe (Elem.sizeList cs) s s1) ∧
    (∀ om e s b s1, formatElementInlineBlock om fuel e s = some (b, s1) →
      TraceLe (Elem.size e) s s1) := by
  intro fuel
  induction fuel with
  | zero =>
    refine ⟨?_, ?_, ?_, ?_, ?_, ?_, ?_, ?_⟩
    · intro om e s b s1 h; simp [formatElement] at h
    · intro om e s t h; simp [formatRoot] at h
    · intro om all pend s t h; simp [childrenPass] at h
    · intro om pend s t h; simp [plainPass] at h
    · intro om e s b s1 h; simp [formatElementBlock] at h
    · intro om e s b s1 h; simp [formatElementInline] at h
    · intro om cs s b s1 h; simp [inlineChildren] at h
    · intro om e s b s1 h; simp [formatElementInlineBlock] at h
  | succ n ih =>
    obtain ⟨ihE, ihR, ihC, ihP, ihB, ihI, ihIC, ihIB⟩ := ih
    refine ⟨?_, ?_, ?_, ?_, ?_, ?_, ?_, ?_⟩
    · -- formatElement
      intro om e s b s1 h
      simp only [formatElement] at h
      by_cases h1 : e.tag = "br"
      · simp only [if_pos h1] at h
        obtain ⟨hb, hs⟩ := some_pair_inj h.symm
        rw [hs]
        exact traceLe_trans (traceLe_push s (Event.addBreak e) (le_refl _))
          (traceLe_push (push s (Event.addBreak e)) (Event.onLayout e) (le_refl _))
      simp only [if_neg h1] at h
      by_cases h2 : e.display = Display.none
      · simp only [if_pos h2] at h
        obtain ⟨hb, hs⟩ := some_pair_inj h.symm
        rw [hs]
        exact traceLe_refl _ _
      simp only [if_neg h2] at h
      by_cases h3 : e.position = Position.absolute ∨ e.position = Position.fixed
      · simp only [if_pos h3] at h
        obtain ⟨hb, hs⟩ := some_pair_inj h.symm
        rw [hs]
        exact traceLe_push s _ (le_refl _)
      simp only [if_neg h3] at h
      by_cases h4 : e.float_ ≠ FloatProp.none
      · simp only [if_pos h4] at h
        cases hr : formatRoot om n e s with
        | none => simp [hr] at h
        | some sR =>
          simp only [hr] at h
          obtain ⟨hb, hs⟩ := some_pair_inj h
          have hs2 : (askFloat om e sR).2 = s1 := hs
          rw [← hs2]
          exact traceLe_trans (ihR _ _ _ _ hr) (traceLe_askFloat om e sR (le_refl _))
      simp only [if_neg h4] at h
      cases hd : e.display with
      | none => exact absurd hd h2
      | block => rw [hd] at h; exact ihB _ _ _ _ _ h
      | inlineDisp => rw [hd] at h; exact ihI _ _ _ _ _ h
      | inlineBlock => rw [hd] at h; exact ihIB _ _ _ _ _ h
      | table =>
        rw [hd] at h
        obtain ⟨hb, hs⟩ := some_pair_inj h
        have hs2 : (formatElementTable om e s).2 = s1 := hs
        rw [← hs2]
        exact formatElementTable_trace om e s
      | tableRow =>
        rw [hd] at h
        obtain ⟨hb, hs⟩ := some_pair_inj h.symm
        rw [hs]
        exact traceLe_push s _ (le_refl _)
      | tableRowGroup =>
        rw [hd] at h
        obtain ⟨hb, hs⟩ := some_pair_inj h.symm
        rw [hs]
        exact traceLe_push s _ (le_refl _)
      | tableColumn =>
        rw [hd] at h
        obtain ⟨hb, hs⟩ := some_pair_inj h.symm
        rw [hs]
        exact traceLe_push s _ (le_refl _)
      | tableColumnGroup =>
        rw [hd] at h
        obtain ⟨hb, hs⟩ := some_pair_inj h.symm
        rw [hs]
        exact traceLe_push s _ (le_refl _)
      | tableCell =>
        rw [hd] at h
        obtain ⟨hb, hs⟩ := some_pair_inj h.symm
        rw [hs]
        exact traceLe_push s _ (le_refl _)
    · -- formatRoot
      intro om e s t h
      simp only [formatRoot] at h
      have hchildB : max (Elem.sizeList e.children) (Elem.sizeList e.children) ≤ Elem.size e := by
        rw [size_children_eq e]; omega
      cases hc : childrenPass om n e.children e.children (push s (Event.addBlock e true)) with
      | none => simp [hc] at h
      | some s1 =>
        simp only [hc] at h
        have hT0 : TraceLe (Elem.size e) s (push s (Event.addBlock e true)) :=
          traceLe_push s _ (le_refl _)
        have hT1 : TraceLe (Elem.size e) (push s (Event.addBlock e true)) s1 :=
          traceLe_mono hchildB (ihC _ _ _ _ _ hc)
        by_cases hok : (askClose om e s1).1 = CloseResult.OK
        · simp only [if_pos hok] at h
          have ht := Option.some.inj h
          rw [← ht]
          refine traceLe_trans hT0 (traceLe_trans hT1 (traceLe_trans
            (traceLe_askClose om e s1 (le_refl _)) (traceLe_trans
              (traceLe_push (askClose om e s1).2 (Event.closeAbsolutes e) (le_refl _))
              (traceLe_push (push (askClose om e s1).2 (Event.closeAbsolutes e))
                (Event.onLayout e) (le_refl _)))))
        · simp only [if_neg hok] at h
          cases hc2 : childrenPass om n e.children e.children (askClose om e s1).2 with
          | none => simp [hc2] at h
          | some s2 =>
            simp only [hc2] at h
            have ht := Option.some.inj h
            rw [← ht]
            refine traceLe_trans hT0 (traceLe_trans hT1 (traceLe_trans
              (traceLe_askClose om e s1 (le_refl _)) (traceLe_trans
                (traceLe_mono hchildB (ihC _ _ _ _ _ hc2)) (traceLe_trans
                  (traceLe_askClose om e s2 (le_refl _)) (traceLe_trans
                    (traceLe_push (askClose om e s2).2 (Event.closeAbsolutes e) (le_refl _))
                    (traceLe_push (push (askClose om e s2).2 (Event.closeAbsolutes e))
                      (Event.onLayout e) (le_refl _)))))))
    · -- childrenPass
      intro om all pend s t h
      cases pend with
      | nil =>
        simp only [childrenPass] at h
        rw [← Option.some.inj h]
        exact traceLe_refl _ _
      | cons c rest =>
        simp only [childrenPass] at h
        cases hf : formatElement om n c s with
        | none => simp [hf] at h
        | some p =>
          obtain ⟨b, s1⟩ := p
          have hcbound : Elem.size c ≤ max (Elem.sizeList all) (Elem.sizeList (c :: rest)) := by
            rw [sizeList_cons]
            have hr0 : 0 ≤ Elem.sizeList rest := Nat.zero_le _
            exact le_max_of_le_right (by omega)
          have hhead : TraceLe (max (Elem.sizeList all) (Elem.sizeList (c :: rest))) s s1 :=
            traceLe_mono hcbound (ihE _ _ _ _ _ hf)
          cases b
          · simp only [hf] at h
            have htail := ihC _ _ _ _ _ h
            have hrb : max (Elem.sizeList all) (Elem.sizeList all) ≤
                max (Elem.sizeList all) (Elem.sizeList (c :: rest)) := by
              simp
            exact traceLe_trans hhead (traceLe_mono hrb htail)
          · simp only [hf] at h
            have htail := ihC _ _ _ _ _ h
            have hrb : max (Elem.sizeList all) (Elem.sizeList rest) ≤
                max (Elem.sizeList all) (Elem.sizeList (c :: rest)) := by
              rw [sizeList_cons]
              have := size_pos c
              exact max_le_max (le_refl _) (by omega)
            exact traceLe_trans hhead (traceLe_mono hrb htail)
    · -- plainPass
      intro om pend s t h
      cases pend with
      | nil =>
        simp only [plainPass] at h
        rw [← Option.some.inj h]
        exact traceLe_refl _ _
      | cons c rest =>
        simp only [plainPass] at h
        cases hf : formatElement om n c s with
        | none => simp [hf] at h
        | some p =>
          obtain ⟨b, s1⟩ := p
          simp only [hf] at h
          have hhead : TraceLe (Elem.sizeList (c :: rest)) s s1 :=
            traceLe_mono (by rw [sizeList_cons]; omega) (ihE _ _ _ _ _ hf)
          have htail : TraceLe (Elem.sizeList (c :: rest)) s1 t :=
            traceLe_mono (by rw [sizeList_cons]; have := size_pos c; omega) (ihP _ _ _ _ h)
          exact traceLe_trans hhead htail
    · -- formatElementBlock
      intro om e s b s1 h
      simp only [formatElementBlock] at h
      have hchildB : max (Elem.sizeList e.children) (Elem.sizeList e.children) ≤ Elem.size e := by
        rw [size_children_eq e]; omega
      have hplainB : Elem.sizeList e.children ≤ Elem.size e := by
        rw [size_children_eq e]; omega
      by_cases hop : (askOpen om e s).1 = false
      · simp only [if_pos hop] at h
        obtain ⟨hb, hs⟩ := some_pair_inj h.symm
        rw [hs]
        exact traceLe_askOpen om e s (le_refl _)
      simp only [if_neg hop] at h
      have hT0 : TraceLe (Elem.size e) s (askOpen om e s).2 := traceLe_askOpen om e s (le_refl _)
      cases hc : childrenPass om n e.children e.children (askOpen om e s).2 with
      | none => simp [hc] at h
      | some s2 =>
        simp only [hc] at h
        have hT1 : TraceLe (Elem.size e) (askOpen om e s).2 s2 :=
          traceLe_mono hchildB (ihC _ _ _ _ _ hc)
        have hT2 : TraceLe (Elem.size e) s2 (askClose om e s2).2 :=
          traceLe_askClose om e s2 (le_refl _)
        cases hq : (askClose om e s2).1 with
        | LAYOUT_SELF =>
          simp only [hq] at h
          cases hp : plainPass om n e.children (askClose om e s2).2 with
          | none => simp [hp] at h
          | some s3 =>
            simp only [hp] at h
            have hT3 : TraceLe (Elem.size e) (askClose om e s2).2 s3 :=
              traceLe_mono hplainB (ihP _ _ _ _ hp)
            have hT4 : TraceLe (Elem.size e) s3 (askClose om e s3).2 :=
              traceLe_askClose om e s3 (le_refl _)
            by_cases hq2 : (askClose om e s3).1 = CloseResult.OK
            · simp only [if_pos hq2] at h
              obtain ⟨hb, hs⟩ := some_pair_inj h.symm
              rw [hs]
              exact traceLe_trans hT0 (traceLe_trans hT1 (traceLe_trans hT2
                (traceLe_trans hT3 (traceLe_trans hT4
                  (traceLe_push (askClose om e s3).2 (Event.onLayout e) (le_refl _))))))
            · simp only [if_neg hq2] at h
              obtain ⟨hb, hs⟩ := some_pair_inj h.symm
              rw [hs]
              exact traceLe_trans hT0 (traceLe_trans hT1 (traceLe_trans hT2
                (traceLe_trans hT3 hT4)))
        | LAYOUT_PARENT =>
          simp only [hq] at h
          obtain ⟨hb, hs⟩ := some_pair_inj h.symm
          rw [hs]
          exact traceLe_trans hT0 (traceLe_trans hT1 hT2)
        | OK =>
          simp only [hq] at h
          obtain ⟨hb, hs⟩ := some_pair_inj h.symm
          rw [hs]
          exact traceLe_trans hT0 (traceLe_trans hT1 (traceLe_trans hT2
            (traceLe_push (askClose om e s2).2 (Event.onLayout e) (le_refl _))))
    · -- formatElementInline
      intro om e s b s1 h
      simp only [formatElementInline] at h
      have hchB : Elem.sizeList e.children ≤ Elem.size e := by
        rw [size_children_eq e]; omega
      cases hic : inlineChildren om n e.children (push s (Event.addInline e)) with
      | none => simp [hic] at h
      | some p =>
        obtain ⟨bi, si⟩ := p
        have hT0 : TraceLe (Elem.size e) s (push s (Event.addInline e)) :=
          traceLe_push s _ (le_refl _)
        have hT1 : TraceLe (Elem.size e) (push s (Event.addInline e)) si :=
          traceLe_mono hchB (ihIC _ _ _ _ _ hic)
        cases bi
        · simp only [hic] at h
          obtain ⟨hb, hs⟩ := some_pair_inj h.symm
          rw [hs]
          exact traceLe_trans hT0 hT1
        · simp only [hic] at h
          obtain ⟨hb, hs⟩ := some_pair_inj h.symm
          rw [hs]
          exact traceLe_trans hT0 (traceLe_trans hT1
            (traceLe_push si (Event.closeInline e) (le_refl _)))
    · -- inlineChildren
      intro om cs s b s1 h
      cases cs with
      | nil =>
        simp only [inlineChildren] at h
        obtain ⟨hb, hs⟩ := some_pair_inj h.symm
        rw [hs]
        exact traceLe_refl _ _
      | cons c rest =>
        simp only [inlineChildren] at h
        cases hf : formatElement om n c s with
        | none => simp [hf] at h
        | some p =>
          obtain ⟨bh, sh⟩ := p
          have hhead : TraceLe (Elem.sizeList (c :: rest)) s sh :=
            traceLe_mono (by rw [sizeList_cons]; omega) (ihE _ _ _ _ _ hf)
          cases bh
          · simp only [hf] at h
            obtain ⟨hb, hs⟩ := some_pair_inj h.symm
            rw [hs]
            exact hhead
          · simp only [hf] at h
            have htail : TraceLe (Elem.sizeList (c :: rest)) sh s1 :=
              traceLe_mono (by rw [sizeList_cons]; have := size_pos c; omega)
                (ihIC _ _ _ _ _ h)
            exact traceLe_trans hhead htail
    · -- formatElementInlineBlock
      intro om e s b s1 h
      simp only [formatElementInlineBlock] at h
      cases hr : formatRoot om n e s with
      | none => simp [hr] at h
      | some sR =>
        simp only [hr] at h
        obtain ⟨hb, hs⟩ := some_pair_inj h.symm
        rw [hs]
        exact traceLe_trans (ihR _ _ _ _ hr) (traceLe_trans
          (traceLe_push sR (Event.addInline e) (le_refl _))
          (traceLe_push (push sR (Event.addInline e)) (Event.closeInline e) (le_refl _)))

/-- The plain retry pass terminates once every child terminates. -/
theorem plainPass_exists (om : Oracle) (cs : List Elem)
    (H : ∀ c ∈ cs, ∀ s : LState, ∃ f r, formatElement om f c s = some r) :
    ∀ s : LState, ∃ f t, plainPass om f cs s = some t := by
  induction cs with
  | nil => intro s; exact ⟨1, s, rfl⟩
  | cons c rest ih =>
    intro s
    obtain ⟨f1, ⟨b, s1⟩, h1⟩ := H c (List.mem_cons_self c rest) s
    obtain ⟨f2, t, h2⟩ := ih (fun d hd s2 => H d (List.mem_cons_of_mem c hd) s2) s1
    refine ⟨max f1 f2 + 1, t, ?_⟩
    have h1m := formatElement_mono om f1 (max f1 f2) c s (b, s1) (le_max_left _ _) h1
    have h2m := plainPass_mono om f2 (max f1 f2) rest s1 t (le_max_right _ _) h2
    simp only [plainPass, h1m]
    exact h2m

/-- The inline children pass terminates once every child terminates. -/
theorem inlineChildren_exists (om : Oracle) (cs : List Elem)
    (H : ∀ c ∈ cs, ∀ s : LState, ∃ f r, formatElement om f c s = some r) :
    ∀ s : LState, ∃ f r, inlineChildren om f cs s = some r := by
  induction cs with
  | nil => intro s; exact ⟨1, (true, s), rfl⟩
  | cons c rest ih =>
    intro s
    obtain ⟨f1, ⟨b, s1⟩, h1⟩ := H c (List.mem_cons_self c rest) s
    cases b with
    | false =>
      refine ⟨f1 + 1, (false, s1), ?_⟩
      simp only [inlineChildren, h1]
    | true =>
      obtain ⟨f2, r, h2⟩ := ih (fun d hd s2 => H d (List.mem_cons_of_mem c hd) s2) s1
      refine ⟨max f1 f2 + 1, r, ?_⟩
      have h1m := formatElement_mono om f1 (max f1 f2) c s (true, s1) (le_max_left _ _) h1
      have h2m := inlineChildren_mono om f2 (max f1 f2) rest s1 r (le_max_right _ _) h2
      simp only [inlineChildren, h1m]
      exact h2m

/-- The restarting children pass terminates: every restart consumes one unit
of the blocking-condition budget, so restarts are bounded by the initial
budget. -/
theorem childrenPass_exists (om : Oracle) (all : List Elem)
    (H : ∀ c ∈ all, ∀ s : LState, ∃ f r, formatElement om f c s = some r) :
    ∀ n : Nat, ∀ pend : List Elem, pend ⊆ all → ∀ s : LState, s.budget ≤ n →
      ∃ f t, childrenPass om f all pend s = some t := by
  intro n
  induction n using Nat.strong_induction_on with
  | _ n ihn =>
    intro pend
    induction pend with
    | nil => intro _ s _; exact ⟨1, s, rfl⟩
    | cons c rest ihp =>
      intro hsub s hbud
      have hcmem : c ∈ all := hsub (List.mem_cons_self c rest)
      obtain ⟨f1, ⟨b, s1⟩, h1⟩ := H c hcmem s
      have hble := (budget_all f1).1 om c s b s1 h1
      cases b with
      | true =>
        have hrest : rest ⊆ all := fun d hd => hsub (List.mem_cons_of_mem c hd)
        obtain ⟨f2, t, h2⟩ := ihp hrest s1 (le_trans hble.1 hbud)
        refine ⟨max f1 f2 + 1, t, ?_⟩
        have h1m := formatElement_mono om f1 (max f1 f2) c s (true, s1) (le_max_left _ _) h1
        have h2m := childrenPass_mono om f2 (max f1 f2) all rest s1 t (le_max_right _ _) h2
        simp only [childrenPass, h1m]
        exact h2m
      | false =>
        have hlt : s1.budget < n := lt_of_lt_of_le (hble.2 rfl) hbud
        obtain ⟨f2, t, h2⟩ := ihn s1.budget hlt all (fun d hd => hd) s1 (le_refl _)
        refine ⟨max f1 f2 + 1, t, ?_⟩
        have h1m := formatElement_mono om f1 (max f1 f2) c s (false, s1) (le_max_left _ _) h1
        have h2m := childrenPass_mono om f2 (max f1 f2) all all s1 t (le_max_right _ _) h2
        simp only [childrenPass, h1m]
        exact h2m

/-- Every dispatcher entry point terminates on every element tree: there is
always enough fuel for the embedding to produce a result. -/
theorem exists_all : ∀ N : Nat, ∀ e : Elem, Elem.size e ≤ N → ∀ om : Oracle,
    (∀ s, ∃ f t, formatRoot om f e s = some t) ∧
    (∀ s, ∃ f r, formatElement om f e s = some r) ∧
    (∀ s, ∃ f r, formatElementBlock om f e s = some r) ∧
    (∀ s, ∃ f r, formatElementInline om f e s = some r) ∧
    (∀ s, ∃ f r, formatElementInlineBlock om f e s = some r) := by
  intro N
  induction N using Nat.strong_induction_on with
  | _ N ihN =>
    intro e hsize om
    have Hch : ∀ c ∈ e.children, ∀ s : LState, ∃ f r, formatElement om f c s = some r := by
      intro c hc s
      have hcs : Elem.size c < Elem.size e := by
        have h1 := size_mem_le hc
        have h2 := size_children_eq e
        omega
      exact (ihN (Elem.size c) (lt_of_lt_of_le hcs hsize) c (le_refl _) om).2.1 s
    have hR : ∀ s, ∃ f t, formatRoot om f e s = some t := by
      intro s
      obtain ⟨f1, s1, h1⟩ := childrenPass_exists om e.children Hch
        (push s (Event.addBlock e true)).budget e.children (fun d hd => hd)
        (push s (Event.addBlock e true)) (le_refl _)
      by_cases hok : (askClose om e s1).1 = CloseResult.OK
      · refine ⟨f1 + 1,
          push (push (askClose om e s1).2 (Event.closeAbsolutes e)) (Event.onLayout e), ?_⟩
        simp only [formatRoot, h1, if_pos hok]
      · obtain ⟨f2, s2, h2⟩ := childrenPass_exists om e.children Hch
          (askClose om e s1).2.budget e.children (fun d hd => hd)
          (askClose om e s1).2 (le_refl _)
        refine ⟨max f1 f2 + 1,
          push (push (askClose om e s2).2 (Event.closeAbsolutes e)) (Event.onLayout e), ?_⟩
        have h1m := childrenPass_mono om f1 (max f1 f2) _ _ _ _ (le_max_left _ _) h1
        have h2m := childrenPass_mono om f2 (max f1 f2) _ _ _ _ (le_max_right _ _) h2
        simp only [formatRoot, h1m, if_neg hok, h2m]
    have hB : ∀ s, ∃ f r, formatElementBlock om f e s = some r := by
      intro s
      by_cases hop : (askOpen om e s).1 = false
      · exact ⟨1, (false, (askOpen om e s).2), by simp only [formatElementBlock, if_pos hop]⟩
      · obtain ⟨f1, s2, h1⟩ := childrenPass_exists om e.children Hch
          (askOpen om e s).2.budget e.children (fun d hd => hd)
          (askOpen om e s).2 (le_refl _)
        cases hq : (askClose om e s2).1 with
        | OK =>
          refine ⟨f1 + 1, (true, push (askClose om e s2).2 (Event.onLayout e)), ?_⟩
          simp only [formatElementBlock, if_neg hop, h1, hq]
        | LAYOUT_PARENT =>
          refine ⟨f1 + 1, (false, (askClose om e s2).2), ?_⟩
          simp only [formatElementBlock, if_neg hop, h1, hq]
        | LAYOUT_SELF =>
          obtain ⟨f2, s3, h2⟩ := plainPass_exists om e.children Hch (askClose om e s2).2
          have h1m := childrenPass_mono om f1 (max f1 f2) _ _ _ _ (le_max_left _ _) h1
          have h2m := plainPass_mono om f2 (max f1 f2) _ _ _ (le_max_right _ _) h2
          by_cases hq2 : (askClose om e s3).1 = CloseResult.OK
          · refine ⟨max f1 f2 + 1, (true, push (askClose om e s3).2 (Event.onLayout e)), ?_⟩
            simp only [formatElementBlock, if_neg hop, h1m, hq, h2m, if_pos hq2]
          · refine ⟨max f1 f2 + 1, (false, (askClose om e s3).2), ?_⟩
            simp only [formatElementBlock, if_neg hop, h1m, hq, h2m, if_neg hq2]
    have hI : ∀ s, ∃ f r, formatElementInline om f e s = some r := by
      intro s
      obtain ⟨f1, ⟨bi, si⟩, h1⟩ := inlineChildren_exists om e.children Hch
        (push s (Event.addInline e))
      cases bi with
      | false =>
        refine ⟨f1 + 1, (false, si), ?_⟩
        simp only [formatElementInline, h1]
      | true =>
        refine ⟨f1 + 1, (true, push si (Event.closeInline e)), ?_⟩
        simp only [formatElementInline, h1]
    have hIB : ∀ s, ∃ f r, formatElementInlineBlock om f e s = some r := by
      intro s
      obtain ⟨f1, sR, h1⟩ := hR s
      refine ⟨f1 + 1, (true, push (push sR (Event.addInline e)) (Event.closeInline e)), ?_⟩
      simp only [formatElementInlineBlock, h1]
    have hE : ∀ s, ∃ f r, formatElement om f e s = some r := by
      intro s
      by_cases h1 : e.tag = "br"
      · exact ⟨1, (true, push (push s (Event.addBreak e)) (Event.onLayout e)),
          by simp only [formatElement, if_pos h1]⟩
      by_cases h2 : e.display = Display.none
      · exact ⟨1, (true, s),
          by simp only [formatElement, if_neg h1, if_pos h2]⟩
      by_cases h3 : e.position = Position.absolute ∨ e.position = Position.fixed
      · exact ⟨1, (true, push s (Event.addAbsolute e)),
          by simp only [formatElement, if_neg h1, if_neg h2, if_pos h3]⟩
      by_cases h4 : e.float_ ≠ FloatProp.none
      · obtain ⟨fR, sR, hRr⟩ := hR s
        refine ⟨fR + 1, askFloat om e sR, ?_⟩
        simp only [formatElement, if_neg h1, if_neg h2, if_neg h3, if_pos h4, hRr]
      cases hd : e.display with
      | none => exact absurd hd h2
      | block =>
        obtain ⟨f, r, h⟩ := hB s
        refine ⟨f + 1, r, ?_⟩
        simp only [formatElement, if_neg h1, if_neg h2, if_neg h3, if_neg h4, hd]
        exact h
      | inlineDisp =>
        obtain ⟨f, r, h⟩ := hI s
        refine ⟨f + 1, r, ?_⟩
        simp only [formatElement, if_neg h1, if_neg h2, if_neg h3, if_neg h4, hd]
        exact h
      | inlineBlock =>
        obtain ⟨f, r, h⟩ := hIB s
        refine ⟨f + 1, r, ?_⟩
        simp only [formatElement, if_neg h1, if_neg h2, if_neg h3, if_neg h4, hd]
        exact h
      | table =>
        refine ⟨1, formatElementTable om e s, ?_⟩
        simp [formatElement, h1, h2, h3, h4, hd]
      | tableRow =>
        exact ⟨1, (true, push s (Event.warn e Display.tableRow)),
          by simp [formatElement, h1, h2, h3, h4, hd]⟩
      | tableRowGroup =>
        exact ⟨1, (true, push s (Event.warn e Display.tableRowGroup)),
          by simp [formatElement, h1, h2, h3, h4, hd]⟩
      | tableColumn =>
        exact ⟨1, (true, push s (Event.warn e Display.tableColumn)),
          by simp [formatElement, h1, h2, h3, h4, hd]⟩
      | tableColumnGroup =>
        exact ⟨1, (true, push s (Event.warn e Display.tableColumnGroup)),
          by simp [formatElement, h1, h2, h3, h4, hd]⟩
      | tableCell =>
        exact ⟨1, (true, push s (Event.warn e Display.tableCell)),
          by simp [formatElement, h1, h2, h3, h4, hd]⟩
    exact ⟨hR, hE, hB, hI, hIB⟩

/-- The root formatting pass terminates for every element tree, oracle and
starting state. -/
theorem formatRoot_terminates (om : Oracle) (e : Elem) (s : LState) :
    ∃ f t, formatRoot om f e s = some t :=
  (exists_all (Elem.size e) e (le_refl _) om).1 s

theorem elem_close (e : Elem) (r : CloseResult) : Event.elem (Event.close e r) = e := rfl

theorem elem_closeAbsolutes (e : Elem) : Event.elem (Event.closeAbsolutes e) = e := rfl

/-- An event concerning a strictly smaller element is not a close event of e. -/
theorem small_not_closeOf {e : Elem} {ev : Event}
    (h : Elem.size (Event.elem ev) < Elem.size e) : isCloseOf e ev = false := by
  cases ev with
  | close e2 r =>
    simp only [isCloseOf, decide_eq_false_iff_not]
    intro heq
    rw [elem_close] at h
    rw [heq] at h
    omega
  | addBreak e2 => rfl
  | onLayout e2 => rfl
  | addAbsolute e2 => rfl
  | addFloat e2 b => rfl
  | addBlock e2 b => rfl
  | closeAbsolutes e2 => rfl
  | addInline e2 => rfl
  | closeInline e2 => rfl
  | formatTable e2 r => rfl
  | warn e2 d => rfl

/-- An event concerning a strictly smaller element is not the
closeAbsolutes event of e. -/
theorem small_not_closeAbs {e : Elem} {ev : Event}
    (h : Elem.size (Event.elem ev) < Elem.size e) : Event.closeAbsolutes e ≠ ev := by
  intro heq
  rw [← heq, elem_closeAbsolutes] at h
  omega

/-- The child pass of a root or block context only appends events about
strictly smaller elements. -/
theorem childrenPass_trace_small (om : Oracle) (f : Nat) (e : Elem) (s t : LState)
    (h : childrenPass om f e.children e.children s = some t) :
    ∃ l, t.trace = s.trace ++ l ∧ ∀ ev ∈ l, Elem.size (Event.elem ev) < Elem.size e := by
  obtain ⟨l, he, hm⟩ := (trace_all f).2.2.1 om e.children e.children s t h
  refine ⟨l, he, fun ev hev => ?_⟩
  have h1 := hm ev hev
  rw [max_self] at h1
  have h2 := size_children_eq e
  omega

/-- Inversion of the root pass: its whole trace is the opening of the child
context, the in-flow passes interleaved with at most one failed finalize,
then the final finalize, the deferred absolute processing, and the
layout-complete notification, in that order. -/
theorem formatRoot_shape (om : Oracle) (fuel : Nat) (e : Elem) (s t : LState)
    (h : formatRoot om (fuel + 1) e s = some t) :
    ∃ d r, t.trace = s.trace ++ [Event.addBlock e true] ++ d ++
        [Event.close e r, Event.closeAbsolutes e, Event.onLayout e] ∧
      List.countP (isCloseOf e) d ≤ 1 ∧ Event.closeAbsolutes e ∉ d := by
  simp only [formatRoot] at h
  cases hc : childrenPass om fuel e.children e.children (push s (Event.addBlock e true)) with
  | none => simp [hc] at h
  | some s1 =>
    simp only [hc] at h
    obtain ⟨l1, hl1, hm1⟩ := childrenPass_trace_small om fuel e _ _ hc
    rw [push_trace] at hl1
    by_cases hok : (askClose om e s1).1 = CloseResult.OK
    · simp only [if_pos hok] at h
      obtain rfl := (Option.some.inj h).symm
      refine ⟨l1, (askClose om e s1).1, ?_, ?_, ?_⟩
      · rw [push_trace, push_trace, askClose_trace, hl1]
        simp [List.append_assoc]
      · have hz : List.countP (isCloseOf e) l1 = 0 := by
          rw [List.countP_eq_zero]
          intro ev hev
          rw [small_not_closeOf (hm1 ev hev)]
          simp
        omega
      · intro hmem
        exact small_not_closeAbs (hm1 _ hmem) rfl
    · simp only [if_neg hok] at h
      cases hc2 : childrenPass om fuel e.children e.children (askClose om e s1).2 with
      | none => simp [hc2] at h
      | some s2 =>
        simp only [hc2] at h
        obtain ⟨l2, hl2, hm2⟩ := childrenPass_trace_small om fuel e _ _ hc2
        rw [askClose_trace, hl1] at hl2
        obtain rfl := (Option.some.inj h).symm
        refine ⟨l1 ++ [Event.close e (askClose om e s1).1] ++ l2,
          (askClose om e s2).1, ?_, ?_, ?_⟩
        · rw [push_trace, push_trace, askClose_trace, hl2]
          simp [List.append_assoc]
        · have hz1 : List.countP (isCloseOf e) l1 = 0 := by
            rw [List.countP_eq_zero]
            intro ev hev
            rw [small_not_closeOf (hm1 ev hev)]
            simp
          have hz2 : List.countP (isCloseOf e) l2 = 0 := by
            rw [List.countP_eq_zero]
            intro ev hev
            rw [small_not_closeOf (hm2 ev hev)]
            simp
          rw [List.countP_append, List.countP_append, hz1, hz2]
          simp [isCloseOf]
        · intro hmem
          rcases List.mem_append.mp hmem with hmem1 | hmem2
          · rcases List.mem_append.mp hmem1 with hmem3 | hmem4
            · exact small_not_closeAbs (hm1 _ hmem3) rfl
            · rw [List.mem_singleton] at hmem4
              cases hmem4
          · exact small_not_closeAbs (hm2 _ hmem2) rfl

/-- C1: for every element tree, every oracle behavior and every starting
state, the root FormatElement (formatRoot) terminates: some amount of fuel
makes the embedding return a result, so the sibling-sequence restart inside
a pass cannot repeat indefinitely (every restart consumes a latent blocking
condition, modelled from the spec).  Moreover the appended trace contains at
most 2 close events of the root context, i.e. at most 2 full
child-formatting passes are closed before the root context finishes. -/
theorem claim1_root_terminates_bounded (om : Oracle) (e : Elem) (s : LState) :
    ∃ fuel t d, formatRoot om fuel e s = some t ∧ t.trace = s.trace ++ d ∧
      List.countP (isCloseOf e) d ≤ 2 := by
  obtain ⟨f, t, hf⟩ := formatRoot_terminates om e s
  have hf1 : formatRoot om (f + 1) e s = some t :=
    formatRoot_mono om f (f + 1) e s t (Nat.le_succ f) hf
  obtain ⟨d, r, htr, hcount, hnot⟩ := formatRoot_shape om f e s t hf1
  refine ⟨f + 1, t, [Event.addBlock e true] ++ d ++
      [Event.close e r, Event.closeAbsolutes e, Event.onLayout e], hf1, ?_, ?_⟩
  · rw [htr]; simp [List.append_assoc]
  · rw [List.countP_append, List.countP_append]
    have h1 : List.countP (isCloseOf e) [Event.addBlock e true] = 0 := by
      simp [isCloseOf, List.countP_cons, List.countP_nil]
    have h2 : List.countP (isCloseOf e)
        [Event.close e r, Event.closeAbsolutes e, Event.onLayout e] = 1 := by
      simp [isCloseOf, List.countP_cons, List.countP_nil]
    omega

/-- C2 (amended): for every element that is not a br, if its computed
display is none then FormatElement returns true immediately with the state
untouched: no box is assigned, no layout-complete notification is
delivered, and no recursion into the subtree happens. -/
theorem claim2_display_none (om : Oracle) (fuel : Nat) (e : Elem) (s : LState)
    (hbr : e.tag ≠ "br") (hd : e.display = Display.none) :
    formatElement om (fuel + 1) e s = some (true, s) := by
  simp only [formatElement, if_neg hbr, if_pos hd]

/-- C2 counterexample: a br element with computed display none still takes
the special br path, which registers a line break and delivers the
layout-complete notification, contradicting the claim that every element
with display none is skipped without an OnLayout notification. -/
theorem claim2_counterexample :
    eBrNone.display = Display.none ∧
    formatElement omOK 1 eBrNone st0 =
      some (true, LState.mk 0 0 [Event.addBreak eBrNone, Event.onLayout eBrNone]) ∧
    Event.onLayout eBrNone ∈ [Event.addBreak eBrNone, Event.onLayout eBrNone] := by
  refine ⟨rfl, rfl, ?_⟩
  simp

/-- C2 witness: a non-br display-none element is skipped with the state
untouched. -/
theorem claim2_witness :
    eNone.tag ≠ "br" ∧ eNone.display = Display.none ∧
    formatElement omOK 1 eNone st0 = some (true, st0) :=
  ⟨by decide, rfl, claim2_display_none omOK 0 eNone st0 (by decide) rfl⟩

/-- C3 (amended): for every non-br element whose display is not none, a
position of absolute or fixed makes FormatElement only register the element
into the deferred-absolute list (event addAbsolute) and return true without
recursing into children; and in every root pass the deferred absolutes are
processed (closeAbsolutes) strictly after all in-flow child formatting and
after the final finalize of the root context, never interleaved. -/
theorem claim3_absolute_deferred :
    (∀ om fuel e s, e.tag ≠ "br" → e.display ≠ Display.none →
      (e.position = Position.absolute ∨ e.position = Position.fixed) →
      formatElement om (fuel + 1) e s = some (true, push s (Event.addAbsolute e))) ∧
    (∀ om fuel e s t, formatRoot om (fuel + 1) e s = some t →
      ∃ d r, t.trace = s.trace ++ [Event.addBlock e true] ++ d ++
          [Event.close e r, Event.closeAbsolutes e, Event.onLayout e] ∧
        Event.closeAbsolutes e ∉ d) := by
  constructor
  · intro om fuel e s h1 h2 h3
    simp only [formatElement, if_neg h1, if_neg h2, if_pos h3]
  · intro om fuel e s t h
    obtain ⟨d, r, htr, _, hnot⟩ := formatRoot_shape om fuel e s t h
    exact ⟨d, r, htr, hnot⟩

/-- C3 counterexample: an absolutely positioned element with display none
is skipped entirely (display none wins), and an absolutely positioned br
element takes the br path; in both cases nothing is registered into the
deferred-absolute list, contradicting the claim for every absolutely
positioned element. -/
theorem claim3_counterexample :
    (eAbsNone.position = Position.absolute ∧
      formatElement omOK 1 eAbsNone st0 = some (true, st0) ∧
      Event.addAbsolute eAbsNone ∉ st0.trace) ∧
    (eBrAbs.position = Position.absolute ∧
      formatElement omOK 1 eBrAbs st0 =
        some (true, LState.mk 0 0 [Event.addBreak eBrAbs, Event.onLayout eBrAbs]) ∧
      Event.addAbsolute eBrAbs ∉ [Event.addBreak eBrAbs, Event.onLayout eBrAbs]) := by
  refine ⟨⟨rfl, rfl, ?_⟩, ⟨rfl, rfl, ?_⟩⟩ <;> decide

/-- C3 witness: a plain absolutely positioned block element is only
registered, and a concrete root pass closes its deferred absolutes after
the final close. -/
theorem claim3_witness :
    (eAbs.tag ≠ "br" ∧ eAbs.display ≠ Display.none ∧
      eAbs.position = Position.absolute ∧
      formatElement omOK 1 eAbs st0 = some (true, push st0 (Event.addAbsolute eAbs))) ∧
    (formatRoot omOK 2 eDiv st0 = some (LState.mk 1 0
        [Event.addBlock eDiv true, Event.close eDiv CloseResult.OK,
          Event.closeAbsolutes eDiv, Event.onLayout eDiv]) ∧
      ∃ d r, (LState.mk 1 0
          [Event.addBlock eDiv true, Event.close eDiv CloseResult.OK,
            Event.closeAbsolutes eDiv, Event.onLayout eDiv]).trace =
          st0.trace ++ [Event.addBlock eDiv true] ++ d ++
            [Event.close eDiv r, Event.closeAbsolutes eDiv, Event.onLayout eDiv] ∧
        Event.closeAbsolutes eDiv ∉ d) := by
  refine ⟨⟨by decide, by decide, rfl,
    claim3_absolute_deferred.1 omOK 0 eAbs st0 (by decide) (by decide) (Or.inl rfl)⟩,
    rfl, claim3_absolute_deferred.2 omOK 1 eDiv st0 _ rfl⟩

/-- C4: in block formatting, when the first finalize reports LAYOUT_SELF,
the children pass is re-run exactly once through the plain pass (whose
continuation ignores the child return code, so no sibling restart happens),
the context is finalized again, and the call returns true with the
layout-complete notification exactly when this second finalize commits,
and false otherwise. -/
theorem claim4_block_local_retry :
    (∀ om fuel e s t1 t2,
      (askOpen om e s).1 = true →
      childrenPass om fuel e.children e.children (askOpen om e s).2 = some t1 →
      (askClose om e t1).1 = CloseResult.LAYOUT_SELF →
      plainPass om fuel e.children (askClose om e t1).2 = some t2 →
      formatElementBlock om (fuel + 1) e s =
        some (if (askClose om e t2).1 = CloseResult.OK
          then (true, push (askClose om e t2).2 (Event.onLayout e))
          else (false, (askClose om e t2).2))) ∧
    (∀ om fuel c rest s b1 s1, formatElement om fuel c s = some (b1, s1) →
      plainPass om (fuel + 1) (c :: rest) s = plainPass om fuel rest s1) := by
  constructor
  · intro om fuel e s t1 t2 hop hc hq1 hp
    have hop2 : ¬((askOpen om e s).1 = false) := by rw [hop]; simp
    simp only [formatElementBlock, if_neg hop2, hc, hq1, hp]
    by_cases hq2 : (askClose om e t2).1 = CloseResult.OK
    · simp only [if_pos hq2]
    · simp only [if_neg hq2]
  · intro om fuel c rest s b1 s1 h
    simp only [plainPass, h]

/-- C4 witness: with an oracle whose finalizes report LAYOUT_SELF and a
budget of two blocking conditions, a childless block runs the retry pass
once and degrades to failure when the second finalize again fails. -/
theorem claim4_witness :
    (askOpen omSelf eDiv st2).1 = true ∧
    (askClose omSelf eDiv (askOpen omSelf eDiv st2).2).1 = CloseResult.LAYOUT_SELF ∧
    formatElementBlock omSelf 2 eDiv st2 =
      some (false, LState.mk 3 0 [Event.addBlock eDiv true,
        Event.close eDiv CloseResult.LAYOUT_SELF,
        Event.close eDiv CloseResult.LAYOUT_SELF]) := by
  refine ⟨rfl, rfl, ?_⟩
  have h := claim4_block_local_retry.1 omSelf 1 eDiv st2
    (askOpen omSelf eDiv st2).2
    (askClose omSelf eDiv (askOpen omSelf eDiv st2).2).2
    rfl rfl rfl rfl
  exact h.trans (by decide)

/-- C5: in inline formatting a failing child aborts the whole attempt
immediately, with the failing state returned as is and the rest of the
children untouched; the inline box close event is appended exactly when
every child succeeded, in which case true is returned. -/
theorem claim5_inline_abort :
    (∀ om fuel c rest s s1, formatElement om fuel c s = some (false, s1) →
      inlineChildren om (fuel + 1) (c :: rest) s = some (false, s1)) ∧
    (∀ om fuel e s b s1, formatElementInline om (fuel + 1) e s = some (b, s1) →
      (b = true → ∃ si, inlineChildren om fuel e.children (push s (Event.addInline e)) =
          some (true, si) ∧ s1 = push si (Event.closeInline e)) ∧
      (b = false → inlineChildren om fuel e.children (push s (Event.addInline e)) =
          some (false, s1))) := by
  constructor
  · intro om fuel c rest s s1 h
    simp only [inlineChildren, h]
  · intro om fuel e s b s1 h
    simp only [formatElementInline] at h
    cases hic : inlineChildren om fuel e.children (push s (Event.addInline e)) with
    | none => simp [hic] at h
    | some p =>
      obtain ⟨bi, si⟩ := p
      cases bi
      · simp only [hic] at h
        obtain ⟨hb, hs⟩ := some_pair_inj h
        constructor
        · intro hbt; rw [← hb] at hbt; cases hbt
        · intro _; rw [hs]
      · simp only [hic] at h
        obtain ⟨hb, hs⟩ := some_pair_inj h
        constructor
        · intro _; exact ⟨si, rfl, hs.symm⟩
        · intro hbf; rw [← hb] at hbf; cases hbf

/-- C5 witness: an inline span whose block child fails to open aborts at
once with no inline close committed. -/
theorem claim5_witness :
    inlineChildren omFail 3 (eDiv :: []) (push st1 (Event.addInline eSpan)) =
      some (false, LState.mk 1 0 [Event.addInline eSpan, Event.addBlock eDiv false]) ∧
    inlineChildren omFail 3 eSpan.children (push st1 (Event.addInline eSpan)) =
      some (false, LState.mk 1 0 [Event.addInline eSpan, Event.addBlock eDiv false]) := by
  constructor
  · exact claim5_inline_abort.1 omFail 2 eDiv [] _ _ (by decide)
  · exact (claim5_inline_abort.2 omFail 3 eSpan st1 false _ (by decide)).2 rfl

/-- C6 (amended): for every non-br, non-display-none, in-flow (not
absolutely positioned) element with a non-none float, FormatElement first
formats the element to completion as an independent root, then registers
the float, the registration event following the whole root trace, and
returns exactly the registration outcome. -/
theorem claim6_float_amended :
    ∀ om fuel e s t, e.tag ≠ "br" → e.display ≠ Display.none →
      ¬(e.position = Position.absolute ∨ e.position = Position.fixed) →
      e.float_ ≠ FloatProp.none →
      formatRoot om fuel e s = some t →
      formatElement om (fuel + 1) e s = some (askFloat om e t) ∧
      (askFloat om e t).2.trace = t.trace ++ [Event.addFloat e (askFloat om e t).1] := by
  intro om fuel e s t h1 h2 h3 h4 hr
  constructor
  · simp only [formatElement, if_neg h1, if_neg h2, if_neg h3, if_pos h4, hr]
  · exact askFloat_trace om e t

/-- C6 counterexample: a floated element with display none, a floated br,
and a floated absolutely positioned element are all diverted to earlier
classification branches, so FormatElement does not equal the
root-format-then-register-float composition the claim asserts for every
floated element. -/
theorem claim6_counterexample :
    formatElement omFail 3 eFloatNone st1 ≠
      (formatRoot omFail 2 eFloatNone st1).map (askFloat omFail eFloatNone) ∧
    formatElement omFail 3 eBrFloat st1 ≠
      (formatRoot omFail 2 eBrFloat st1).map (askFloat omFail eBrFloat) ∧
    formatElement omFail 3 eAbsFloat st1 ≠
      (formatRoot omFail 2 eAbsFloat st1).map (askFloat omFail eAbsFloat) := by
  refine ⟨by decide, by decide, by decide⟩

/-- C6 witness: a plain floated block element is root-formatted, then its
float registration is the final event and its outcome is returned. -/
theorem claim6_witness :
    formatRoot omOK 2 eFloat st0 = some (LState.mk 1 0
      [Event.addBlock eFloat true, Event.close eFloat CloseResult.OK,
        Event.closeAbsolutes eFloat, Event.onLayout eFloat]) ∧
    formatElement omOK 3 eFloat st0 = some (true, LState.mk 2 0
      [Event.addBlock eFloat true, Event.close eFloat CloseResult.OK,
        Event.closeAbsolutes eFloat, Event.onLayout eFloat,
        Event.addFloat eFloat true]) := by
  refine ⟨rfl, ?_⟩
  have h := claim6_float_amended omOK 2 eFloat st0 (LState.mk 1 0
      [Event.addBlock eFloat true, Event.close eFloat CloseResult.OK,
        Event.closeAbsolutes eFloat, Event.onLayout eFloat])
    (by decide) (by decide) (by decide) (by decide) rfl
  exact h.1.trans (by decide)

/-- C7 (amended): an in-flow (not absolutely positioned), non-floated
non-br element whose display is a table-substructure value receives no box:
FormatElement records exactly one warning event carrying the element and
its declared display value, and returns true. -/
theorem claim7_table_substructure :
    ∀ om fuel e s, e.tag ≠ "br" →
      ¬(e.position = Position.absolute ∨ e.position = Position.fixed) →
      e.float_ = FloatProp.none →
      (e.display = Display.tableRow ∨ e.display = Display.tableRowGroup ∨
        e.display = Display.tableColumn ∨ e.display = Display.tableColumnGroup ∨
        e.display = Display.tableCell) →
      formatElement om (fuel + 1) e s = some (true, push s (Event.warn e e.display)) := by
  intro om fuel e s h1 h3 h4 hd
  have h2 : e.display ≠ Display.none := by
    rcases hd with h | h | h | h | h <;> rw [h] <;> intro hc <;> cases hc
  have h4n : ¬(e.float_ ≠ FloatProp.none) := by rw [h4]; simp
  rcases hd with h | h | h | h | h <;>
    simp [formatElement, h1, h2, h3, h4n, h]

/-- C7 counterexample: a br, an absolutely positioned element and a floated
element declared as table rows are all handled by earlier classification
branches, so no warning is logged, contradicting the claim for every
table-substructure element outside a table. -/
theorem claim7_counterexample :
    formatElement omOK 1 eRowBr st0 ≠
      some (true, push st0 (Event.warn eRowBr eRowBr.display)) ∧
    formatElement omOK 1 eRowAbs st0 ≠
      some (true, push st0 (Event.warn eRowAbs eRowAbs.display)) ∧
    formatElement omOK 3 eRowFloat st0 ≠
      some (true, push st0 (Event.warn eRowFloat eRowFloat.display)) := by
  refine ⟨by decide, by decide, by decide⟩

/-- C7 witness: an in-flow element declared table-row outside a table logs
exactly one warning and succeeds. -/
theorem claim7_witness :
    eRow.tag ≠ "br" ∧ eRow.display = Display.tableRow ∧
    formatElement omOK 1 eRow st0 =
      some (true, push st0 (Event.warn eRow Display.tableRow)) := by
  refine ⟨by decide, rfl, ?_⟩
  have h := claim7_table_substructure omOK 0 eRow st0 (by decide) (by decide) rfl (Or.inl rfl)
  exact h.trans (by decide)

/-- C8: in block formatting, when opening the child formatting context
fails, the call returns false at once: the returned state is exactly the
state after the failed open, so no child was recursed into. -/
theorem claim8_block_open_fail (om : Oracle) (fuel : Nat) (e : Elem) (s : LState)
    (h : (askOpen om e s).1 = false) :
    formatElementBlock om (fuel + 1) e s = some (false, (askOpen om e s).2) := by
  simp only [formatElementBlock, if_pos h]

/-- C8 witness: a failing open on a block with one blocking condition
pending returns false without any child activity. -/
theorem claim8_witness :
    (askOpen omFail eDiv st1).1 = false ∧
    formatElementBlock omFail 1 eDiv st1 =
      some (false, LState.mk 1 0 [Event.addBlock eDiv false]) := by
  refine ⟨rfl, ?_⟩
  exact (claim8_block_open_fail omFail 0 eDiv st1 rfl).trans (by decide)

/-- C9: table formatting delegates to the table sub-formatter at most
twice: a first OK commits at once with true, a first LAYOUT_PARENT returns
false at once, and a first LAYOUT_SELF triggers exactly one re-delegation
whose LAYOUT_PARENT outcome returns false and whose other outcomes return
true; in every case the trace gains at most 2 delegation events. -/
theorem claim9_table_retry :
    (∀ om e s, (askOpen om e s).1 = true →
      ((askTable om e (askOpen om e s).2).1 = CloseResult.OK →
        formatElementTable om e s = (true, (askTable om e (askOpen om e s).2).2)) ∧
      ((askTable om e (askOpen om e s).2).1 = CloseResult.LAYOUT_PARENT →
        formatElementTable om e s = (false, (askTable om e (askOpen om e s).2).2)) ∧
      ((askTable om e (askOpen om e s).2).1 = CloseResult.LAYOUT_SELF →
        formatElementTable om e s =
          (if (askTable om e (askTable om e (askOpen om e s).2).2).1 =
              CloseResult.LAYOUT_PARENT
            then (false, (askTable om e (askTable om e (askOpen om e s).2).2).2)
            else (true, (askTable om e (askTable om e (askOpen om e s).2).2).2)))) ∧
    (∀ om e s, ∃ d, (formatElementTable om e s).2.trace = s.trace ++ d ∧
      List.countP (isTableOf e) d ≤ 2) := by
  constructor
  · intro om e s hop
    have hop2 : ¬((askOpen om e s).1 = false) := by rw [hop]; simp
    refine ⟨?_, ?_, ?_⟩
    · intro hq; simp only [formatElementTable, if_neg hop2, hq]
    · intro hq; simp only [formatElementTable, if_neg hop2, hq]
    · intro hq
      simp only [formatElementTable, if_neg hop2, hq]
      cases hq2 : (askTable om e (askTable om e (askOpen om e s).2).2).1 with
      | OK => simp
      | LAYOUT_PARENT => simp
      | LAYOUT_SELF => simp
  · intro om e s
    by_cases hop : (askOpen om e s).1 = false
    · refine ⟨[Event.addBlock e (askOpen om e s).1], ?_, ?_⟩
      · simp only [formatElementTable, if_pos hop]
        exact askOpen_trace om e s
      · simp [isTableOf, List.countP_cons, List.countP_nil]
    · cases hq1 : (askTable om e (askOpen om e s).2).1 with
      | OK =>
        refine ⟨[Event.addBlock e (askOpen om e s).1,
          Event.formatTable e (askTable om e (askOpen om e s).2).1], ?_, ?_⟩
        · simp [formatElementTable, if_neg hop, hq1, askTable_trace, askOpen_trace,
            List.append_assoc]
        · simp [isTableOf, List.countP_cons, List.countP_nil]
      | LAYOUT_PARENT =>
        refine ⟨[Event.addBlock e (askOpen om e s).1,
          Event.formatTable e (askTable om e (askOpen om e s).2).1], ?_, ?_⟩
        · simp [formatElementTable, if_neg hop, hq1, askTable_trace, askOpen_trace,
            List.append_assoc]
        · simp [isTableOf, List.countP_cons, List.countP_nil]
      | LAYOUT_SELF =>
        refine ⟨[Event.addBlock e (askOpen om e s).1,
          Event.formatTable e (askTable om e (askOpen om e s).2).1,
          Event.formatTable e (askTable om e (askTable om e (askOpen om e s).2).2).1],
          ?_, ?_⟩
        · cases hq2 : (askTable om e (askTable om e (askOpen om e s).2).2).1 with
          | OK =>
            simp [formatElementTable, if_neg hop, hq1, hq2, askTable_trace, askOpen_trace,
              List.append_assoc]
          | LAYOUT_PARENT =>
            simp [formatElementTable, if_neg hop, hq1, hq2, askTable_trace, askOpen_trace,
              List.append_assoc]
          | LAYOUT_SELF =>
            simp [formatElementTable, if_neg hop, hq1, hq2, askTable_trace, askOpen_trace,
              List.append_assoc]
        · simp [isTableOf, List.countP_cons, List.countP_nil]

/-- C9 witness: a table whose sub-formatter reports LAYOUT_SELF twice is
delegated exactly twice and completes with true. -/
theorem claim9_witness :
    (askOpen omSelf eTable st2).1 = true ∧
    (askTable omSelf eTable (askOpen omSelf eTable st2).2).1 = CloseResult.LAYOUT_SELF ∧
    formatElementTable omSelf eTable st2 = (true, LState.mk 3 0
      [Event.addBlock eTable true, Event.formatTable eTable CloseResult.LAYOUT_SELF,
        Event.formatTable eTable CloseResult.LAYOUT_SELF]) := by
  refine ⟨rfl, rfl, ?_⟩
  have h := (claim9_table_retry.1 omSelf eTable st2 rfl).2.2 rfl
  exact h.trans (by decide)

/-- C10: inline-block formatting never fails: whatever the nested root pass
did, the result is true, and the finished box is inserted and closed as an
atomic inline unit right after the whole nested root trace. -/
theorem claim10_inline_block_always_true :
    (∀ om fuel e s r, formatElementInlineBlock om fuel e s = some r → r.1 = true) ∧
    (∀ om fuel e s t, formatRoot om fuel e s = some t →
      formatElementInlineBlock om (fuel + 1) e s =
        some (true, push (push t (Event.addInline e)) (Event.closeInline e))) := by
  constructor
  · intro om fuel e s r h
    cases fuel with
    | zero => simp [formatElementInlineBlock] at h
    | succ n =>
      simp only [formatElementInlineBlock] at h
      cases hr : formatRoot om n e s with
      | none => simp [hr] at h
      | some t =>
        simp only [hr] at h
        obtain ⟨b, s1⟩ := r
        obtain ⟨hb, hs⟩ := some_pair_inj h
        exact hb.symm
  · intro om fuel e s t h
    simp only [formatElementInlineBlock, h]

/-- C10 witness: an inline-block whose nested root pass exhausts its retry
budget without committing (both finalizes report LAYOUT_SELF) is still
inserted, closed and reported as success. -/
theorem claim10_witness :
    formatRoot omSelf 2 eInlB st2 = some (LState.mk 2 0
      [Event.addBlock eInlB true, Event.close eInlB CloseResult.LAYOUT_SELF,
        Event.close eInlB CloseResult.LAYOUT_SELF, Event.closeAbsolutes eInlB,
        Event.onLayout eInlB]) ∧
    formatElementInlineBlock omSelf 3 eInlB st2 = some (true, LState.mk 2 0
      [Event.addBlock eInlB true, Event.close eInlB CloseResult.LAYOUT_SELF,
        Event.close eInlB CloseResult.LAYOUT_SELF, Event.closeAbsolutes eInlB,
        Event.onLayout eInlB, Event.addInline eInlB, Event.closeInline eInlB]) := by
  refine ⟨rfl, ?_⟩
  have h := claim10_inline_block_always_true.2 omSelf 2 eInlB st2 _ rfl
  exact h.trans (by decide)

end RmlLayout
